import Mathlib

/-!
# A sharded LRU cache with lazy TTL expiry (`lru.go`)

Shallow embedding of `lru.go` and a verification of its specification.

* A shard (`cache`) is the Go struct `cache`: a `container/list` list of
  elements, front first, and a map from keys to element pointers.  A pointer
  to a `list.Element` is an address (`Nat`); every element carries its own
  address, and `fresh` is the next address the allocator hands out.
* The mutex is not modelled: every operation runs under the shard lock, so the
  operations are the sequential functions below.
* `time.Now().UnixNano()` is an argument `now` of the operation that reads the
  clock.
* `int` and `int64` values are `Int`; the one place where the code can
  overflow (`time.Now().Add(d).UnixNano()`) wraps explicitly, and the
  conversion `uint32(c.shardCount)` truncates explicitly.
* A panic is the result `none`.
-/

namespace Lru

/-! ## Data model -/

/-- The constant `NoExpiration` (lru.go:10). -/
def NoExpiration : Int := 0

/-- The struct `cacheEntry` (lru.go:21-25). -/
structure cacheEntry (V : Type) where
  key : String
  value : V
  expireAt : Int
deriving DecidableEq

/-- A `list.Element` of `container/list`: its address and the `*cacheEntry`
it holds in `Value`. -/
structure Element (V : Type) where
  addr : Nat
  Value : cacheEntry V
deriving DecidableEq

/-- The struct `cache` (lru.go:13-18).  `list` is front first; `indexMap` is
the Go map as an association list from key to element address. -/
structure cache (V : Type) where
  list : List (Element V)
  indexMap : List (String × Nat)
  capacity : Int
  fresh : Nat
deriving DecidableEq

/-- The struct `Cache` (lru.go:98-102); `expiration` is a `time.Duration`,
that is a number of nanoseconds. -/
structure Cache (V : Type) where
  shards : List (cache V)
  shardCount : Int
  expiration : Int
deriving DecidableEq

variable {V : Type}

/-! ## Go maps and `container/list` -/

/-- Map read `m[k]` with the comma-ok form. -/
def mapGet : List (String × Nat) → String → Option Nat
  | [], _ => none
  | (k1, a) :: rest, k => if k1 = k then some a else mapGet rest k

/-- The builtin `delete(m, k)`. -/
def mapDelete (m : List (String × Nat)) (k : String) : List (String × Nat) :=
  m.filter (fun p => p.1 ≠ k)

/-- Map write `m[k] = a`. -/
def mapSet (m : List (String × Nat)) (k : String) (a : Nat) : List (String × Nat) :=
  (k, a) :: mapDelete m k

/-- The method `(*List).Len`. -/
def Len (l : List (Element V)) : Int := l.length

/-- The method `(*List).Back`: the last element, or nil for an empty list. -/
def Back (l : List (Element V)) : Option (Element V) := l.getLast?

/-- The method `(*List).Remove` for the element at address `a`; the list is
unchanged when no element of it has that address. -/
def Remove (l : List (Element V)) (a : Nat) : List (Element V) :=
  l.filter (fun e => e.addr ≠ a)

/-- The method `(*List).PushFront`. -/
def PushFront (l : List (Element V)) (e : Element V) : List (Element V) := e :: l

/-- Dereference of an element pointer that points into the list. -/
def deref (l : List (Element V)) (a : Nat) : Option (Element V) :=
  l.find? (fun e => e.addr = a)

/-- The method `(*List).MoveToFront` for the element at address `a`; the list
is unchanged when no element of it has that address. -/
def MoveToFront (l : List (Element V)) (a : Nat) : List (Element V) :=
  match deref l a with
  | some e => e :: Remove l a
  | none => l

/-- The two assignments `entry.value = v; entry.expireAt = expireAt` through
the pointer held by the element at address `a` (lru.go:43-45). -/
def setEntry (l : List (Element V)) (a : Nat) (v : V) (expireAt : Int) : List (Element V) :=
  l.map (fun e => if e.addr = a then
    { e with Value := { e.Value with value := v, expireAt := expireAt } } else e)

/-! ## The shard (lru.go:28-95) -/

/-- The function `newCache` (lru.go:28-34). -/
def newCache (cap : Int) : cache V :=
  { list := [], indexMap := [], capacity := cap, fresh := 0 }

/-- The method `cache.put` (lru.go:37-64). -/
def cache.put (c : cache V) (k : String) (v : V) (expireAt : Int) : cache V :=
  match mapGet c.indexMap k with
  | some elem =>
    { c with list := MoveToFront (setEntry c.list elem v expireAt) elem }
  | none =>
    let c1 : cache V :=
      if Len c.list ≥ c.capacity then
        match Back c.list with
        | some oldest =>
          { c with
            indexMap := mapDelete c.indexMap oldest.Value.key
            list := Remove c.list oldest.addr }
        | none => c
      else c
    { c1 with
      list := PushFront c1.list { addr := c1.fresh, Value := { key := k, value := v, expireAt := expireAt } }
      indexMap := mapSet c1.indexMap k c1.fresh
      fresh := c1.fresh + 1 }

/-- The method `cache.get` (lru.go:67-84); `now` is `time.Now().UnixNano()`.
The result `(none, false)` is Go's `(nil, false)`.  An address found in the
index always points into the list (see `cache.consistent`); the branch for a
pointer that does not is never taken from a state the operations produce. -/
def cache.get (c : cache V) (k : String) (now : Int) : (Option V × Bool) × cache V :=
  match mapGet c.indexMap k with
  | some elem =>
    match deref c.list elem with
    | some e =>
      if e.Value.expireAt = NoExpiration ∨ now < e.Value.expireAt then
        ((some e.Value.value, true), { c with list := MoveToFront c.list elem })
      else
        ((none, false),
          { c with indexMap := mapDelete c.indexMap k, list := Remove c.list elem })
    | none => ((none, false), c)
  | none => ((none, false), c)

/-- The method `cache.del` (lru.go:87-95). -/
def cache.del (c : cache V) (k : String) : cache V :=
  match mapGet c.indexMap k with
  | some elem => { c with indexMap := mapDelete c.indexMap k, list := Remove c.list elem }
  | none => c

/-! ## The sharded cache (lru.go:104-166) -/

/-- Conversion of a mathematical integer to `int64` (two's complement wrap). -/
def wrapInt64 (x : Int) : Int := (x + 2 ^ 63) % 2 ^ 64 - 2 ^ 63

/-- The function `NewLRUCache` (lru.go:105-123).  The variadic argument is a
list; `make` panics on a negative length, which is `none`. -/
def NewLRUCache (bucketCnt capPerBkt : Int) (expiration : List Int) : Option (Cache V) :=
  if bucketCnt < 0 then none
  else
    some
      { shards := List.replicate bucketCnt.toNat (newCache capPerBkt)
        shardCount := bucketCnt
        expiration := match expiration with
          | [] => 0
          | d :: _ => d }

/-- One round of FNV-1a on a 32-bit state: xor the byte, multiply by the FNV
prime. -/
def fnvStep (h : Nat) (b : UInt8) : Nat := ((h ^^^ b.toNat) * 16777619) % 2 ^ 32

/-- The function `hash` (lru.go:126-130): 32-bit FNV-1a of the bytes of the
key. -/
def hash (s : String) : Nat :=
  (s.data.flatMap String.utf8EncodeChar).foldl fnvStep 2166136261

/-- The method `getShard` (lru.go:133-136), as the index of the selected
shard.  `uint32(c.shardCount)` truncates; a zero divisor and an index outside
the slice panic, which is `none`. -/
def Cache.getShard (c : Cache V) (key : String) : Option Nat :=
  let n : Int := c.shardCount % 2 ^ 32
  if n = 0 then none
  else
    let i := hash key % n.toNat
    if i < c.shards.length then some i else none

/-- The local `expireAt` of `Cache.Put` (lru.go:141-144): `NoExpiration`, or
`time.Now().Add(c.expiration).UnixNano()` when a TTL is configured; `now` is
the reading of `time.Now()` in nanoseconds since the epoch, and `UnixNano`
returns an `int64`. -/
def Cache.expireAt (c : Cache V) (now : Int) : Int :=
  if c.expiration > 0 then wrapInt64 (now + c.expiration) else NoExpiration

/-- The method `Cache.Put` (lru.go:139-146); `now` is the reading of
`time.Now()` in nanoseconds since the epoch. -/
def Cache.Put (c : Cache V) (key : String) (val : V) (now : Int) : Option (Cache V) :=
  match c.getShard key with
  | none => none
  | some i =>
    match c.shards[i]? with
    | none => none
    | some shard => some { c with shards := c.shards.set i (shard.put key val (c.expireAt now)) }

/-- The method `Cache.Get` (lru.go:149-152). -/
def Cache.Get (c : Cache V) (key : String) (now : Int) : Option ((Option V × Bool) × Cache V) :=
  match c.getShard key with
  | none => none
  | some i =>
    match c.shards[i]? with
    | none => none
    | some shard =>
      some ((shard.get key now).1, { c with shards := c.shards.set i (shard.get key now).2 })

/-- The method `Cache.Del` (lru.go:155-158). -/
def Cache.Del (c : Cache V) (key : String) : Option (Cache V) :=
  match c.getShard key with
  | none => none
  | some i =>
    match c.shards[i]? with
    | none => none
    | some shard => some { c with shards := c.shards.set i (shard.del key) }

/-- The method `Cache.LRU2` (lru.go:161-166). -/
def Cache.LRU2 (c : Cache V) (capPerBkt : Int) : Cache V :=
  { c with shards := c.shards.map (fun _ => newCache capPerBkt) }

/-! ## Sequences of operations -/

/-- A call on one shard. -/
inductive Op (V : Type) where
  | put (k : String) (v : V) (expireAt : Int)
  | get (k : String) (now : Int)
  | del (k : String)
deriving DecidableEq

/-- The shard after one call. -/
def cache.step (c : cache V) : Op V → cache V
  | .put k v e => c.put k v e
  | .get k now => (c.get k now).2
  | .del k => c.del k

/-- The shard after a sequence of calls. -/
def cache.run (c : cache V) (ops : List (Op V)) : cache V :=
  ops.foldl cache.step c

/-- The key an operation is about. -/
def Op.key : Op V → String
  | .put k _ _ => k
  | .get k _ => k
  | .del k => k

/-- The entries of the shard, front (most recently used) first. -/
def cache.entries (c : cache V) : List (cacheEntry V) := c.list.map (fun e => e.Value)

/-- The keys of the order sequence, front first. -/
def cache.keys (c : cache V) : List String := c.list.map (fun e => e.Value.key)

/-- The keys of the index. -/
def cache.indexKeys (c : cache V) : List String := c.indexMap.map Prod.fst

/-- The entries that a read at time `now` would not treat as expired. -/
def cache.live (c : cache V) (now : Int) : List (Element V) :=
  c.list.filter (fun e => e.Value.expireAt = NoExpiration ∨ now < e.Value.expireAt)

/-- Consistency of a shard: element addresses are pairwise distinct and were
handed out by the allocator, keys are pairwise distinct, and the index holds
exactly the pairs (key, address) of the elements of the list. -/
structure cache.consistent (c : cache V) : Prop where
  addr_nodup : (c.list.map (fun e => e.addr)).Nodup
  key_nodup : c.keys.Nodup
  index_perm : c.indexMap.Perm (c.list.map (fun e => (e.Value.key, e.addr)))
  addr_fresh : ∀ e ∈ c.list, e.addr < c.fresh



/-- The entry stored under a key in the order sequence, if any. -/
def cache.find (c : cache V) (k : String) : Option (cacheEntry V) :=
  c.entries.find? (fun e => e.key = k)

/-- Whether a read at time `now` treats the entry as not expired: the test of
`cache.get` (lru.go:74). -/
def cacheEntry.live (e : cacheEntry V) (now : Int) : Prop :=
  e.expireAt = NoExpiration ∨ now < e.expireAt

instance (e : cacheEntry V) (now : Int) : Decidable (e.live now) := by
  unfold cacheEntry.live; infer_instance

/-- The call `put(p.key, p.value, p.expireAt)`. -/
def putOp (p : cacheEntry V) : Op V := Op.put p.key p.value p.expireAt

/-! ## The history of use of a shard -/

/-- Whether a call is a use of its key: every put, and a read that succeeds.
A delete and a read that reports not-found are not. -/
def cache.uses (c : cache V) : Op V → Bool
  | .put _ _ _ => true
  | .get k now => (c.get k now).1.2
  | .del _ => false

/-- A shard together with the history of its use: the number of calls made so
far, and for each key the number of the last call that used it (zero when it
was never used). -/
structure Stamped (V : Type) where
  shard : cache V
  clock : Nat
  lastUse : String → Nat

/-- One call on a shard with its history. -/
def Stamped.step (s : Stamped V) (op : Op V) : Stamped V :=
  { shard := s.shard.step op
    clock := s.clock + 1
    lastUse := if s.shard.uses op then
        fun k => if k = op.key then s.clock + 1 else s.lastUse k
      else s.lastUse }

/-- A sequence of calls on a shard, recording the history of use. -/
def Stamped.run (c : cache V) (ops : List (Op V)) : Stamped V :=
  ops.foldl Stamped.step { shard := c, clock := 0, lastUse := fun _ => 0 }

/-- What the history of use guarantees: the shard is consistent, no last-use
stamp is in the future, and the keys of the order sequence carry strictly
decreasing stamps from front to back. -/
structure Stamped.sorted (s : Stamped V) : Prop where
  shard_consistent : s.shard.consistent
  le_clock : ∀ k, s.lastUse k ≤ s.clock
  pairwise : s.shard.keys.Pairwise (fun k1 k2 => s.lastUse k2 < s.lastUse k1)

/-! ## Sequences of calls on the sharded cache -/

/-- A call on the sharded cache. -/
inductive COp (V : Type) where
  | Put (key : String) (val : V) (now : Int)
  | Get (key : String) (now : Int)
  | Del (key : String)
  | LRU2 (capPerBkt : Int)
deriving DecidableEq

/-- The cache after one call; `none` when the call panics. -/
def Cache.step (c : Cache V) : COp V → Option (Cache V)
  | .Put k v now => c.Put k v now
  | .Get k now => (c.Get k now).map Prod.snd
  | .Del k => c.Del k
  | .LRU2 n => some (c.LRU2 n)

/-- The cache after a sequence of calls; `none` when one of them panics. -/
def Cache.run (c : Cache V) : List (COp V) → Option (Cache V)
  | [] => some c
  | op :: ops => (c.step op).bind (fun c1 => c1.run ops)

/-- Whether a call is a `Put` of the given key. -/
def COp.isPutOf : COp V → String → Bool
  | .Put k _ _, key => k = key
  | _, _ => false

/-- Every shard of the cache is consistent. -/
def Cache.consistent (c : Cache V) : Prop := ∀ s ∈ c.shards, s.consistent

/-- The shard a key is routed to. -/
def Cache.shardOf (c : Cache V) (key : String) : Option (cache V) :=
  match c.getShard key with
  | none => none
  | some i => c.shards[i]?

/-- The entry stored under a key in the shard the key is routed to, if any. -/
def Cache.stored (c : Cache V) (key : String) : Option (cacheEntry V) :=
  match c.shardOf key with
  | none => none
  | some s => s.find key

/-- The cache with the shard at index `i` replaced: the effect on the cache of
a call that updates the shard `c.shards[i]` in place. -/
def Cache.setShard (c : Cache V) (i : Nat) (s : cache V) : Cache V :=
  { c with shards := c.shards.set i s }

/-- The keys used (put, or read successfully) by a sequence of calls on a
shard, in the order of the calls. -/
def cache.usedKeys (c : cache V) : List (Op V) → List String
  | [] => []
  | op :: ops => (if c.uses op then [op.key] else []) ++ (c.step op).usedKeys ops

/-- The keys put by a sequence of calls, in the order of the calls. -/
def putKeys : List (Op V) → List String
  | [] => []
  | .put k _ _ :: ops => k :: putKeys ops
  | _ :: ops => putKeys ops

/-- The value written by the last put of `k` in a sequence of calls, or `v`
when the sequence has no put of `k`. -/
def lastPut (k : String) (v : V) : List (Op V) → V
  | [] => v
  | .put k1 v1 _ :: ops => if k1 = k then lastPut k v1 ops else lastPut k v ops
  | _ :: ops => lastPut k v ops

/-- A call that keeps a non-expiring entry for `k`: it is not a delete of `k`,
and when it is a put of `k` the entry it writes does not expire. -/
def Op.retains (k : String) : Op V → Bool
  | .put k1 _ x => decide (k1 ≠ k ∨ x = NoExpiration)
  | .get _ _ => true
  | .del k1 => decide (k1 ≠ k)

/-- The results of the reads of a sequence of calls on a shard, in the order of
the calls. -/
def cache.results (c : cache V) : List (Op V) → List (Option V × Bool)
  | [] => []
  | .get k now :: ops => (c.get k now).1 :: (c.get k now).2.results ops
  | .put k v e :: ops => (c.put k v e).results ops
  | .del k :: ops => (c.del k).results ops

/-- Two shards with the same order sequence, the same index and the same
allocator state: they differ at most in their capacity. -/
def cache.sameContents (s t : cache V) : Prop :=
  s.list = t.list ∧ s.indexMap = t.indexMap ∧ s.fresh = t.fresh

/-- Whether a call works on the shard at index `i` of cache `c`: a `Put`,
`Get` or `Del` of a key that `c` routes to `i`, and every `LRU2`, which
replaces all shards. -/
def COp.routedTo (c : Cache V) (i : Nat) : COp V → Bool
  | .Put k _ _ => decide (c.getShard k = some i)
  | .Get k _ => decide (c.getShard k = some i)
  | .Del k => decide (c.getShard k = some i)
  | .LRU2 _ => true

/-- Two caches with the same shard count, number of shards and TTL, and the
same shard at index `i`. -/
def Cache.agreeAt (i : Nat) (c c2 : Cache V) : Prop :=
  c.shardCount = c2.shardCount ∧ c.shards.length = c2.shards.length ∧
  c.expiration = c2.expiration ∧ c.shards[i]? = c2.shards[i]?


/-! ## Lists with a key function that has no repetition -/

section ListAux
variable {α β : Type} [DecidableEq β] (g : α → β)

theorem find_of_mem_nodup {l : List α} (hn : (l.map g).Nodup) {e : α} (he : e ∈ l) :
    l.find? (fun x => g x = g e) = some e := by
  induction l with
  | nil => cases he
  | cons y t ih =>
    rw [List.map_cons, List.nodup_cons] at hn
    by_cases hy : g y = g e
    · have : y = e := by
        rcases List.mem_cons.mp he with h | h
        · exact h.symm
        · exact absurd (hy ▸ List.mem_map_of_mem g h) hn.1
      simp [List.find?, this]
    · have het : e ∈ t := by
        rcases List.mem_cons.mp he with h | h
        · exact absurd (h ▸ rfl) hy
        · exact h
      simp [List.find?, hy, ih hn.2 het]

theorem find_eq_none_of_not_mem {l : List α} {b : β} (h : b ∉ l.map g) :
    l.find? (fun x => g x = b) = none := by
  rw [List.find?_eq_none]
  intro x hx
  simp only [decide_eq_true_eq]
  intro hb
  exact h (hb ▸ List.mem_map_of_mem g hx)

theorem filter_ne_eq_self {l : List α} {b : β} (h : b ∉ l.map g) :
    l.filter (fun x => g x ≠ b) = l := by
  rw [List.filter_eq_self]
  intro x hx
  simp only [ne_eq, decide_not, Bool.not_eq_true', decide_eq_false_iff_not]
  intro hb
  exact h (hb ▸ List.mem_map_of_mem g hx)

theorem perm_cons_filter_ne {l : List α} (hn : (l.map g).Nodup) {e : α} (he : e ∈ l) :
    l.Perm (e :: l.filter (fun x => g x ≠ g e)) := by
  induction l with
  | nil => cases he
  | cons y t ih =>
    rw [List.map_cons, List.nodup_cons] at hn
    by_cases hy : g y = g e
    · have hye : y = e := by
        rcases List.mem_cons.mp he with h | h
        · exact h.symm
        · exact absurd (hy ▸ List.mem_map_of_mem g h) hn.1
      subst hye
      rw [List.filter_cons_of_neg (by simp), filter_ne_eq_self g hn.1]
    · have het : e ∈ t := by
        rcases List.mem_cons.mp he with h | h
        · exact absurd (h ▸ rfl) hy
        · exact h
      rw [List.filter_cons_of_pos (by simpa using hy)]
      exact ((ih hn.2 het).cons y).trans (List.Perm.swap e y _)

theorem filter_ne_getLast {l : List α} (hn : (l.map g).Nodup) {o : α}
    (ho : l.getLast? = some o) : l.filter (fun x => g x ≠ g o) = l.dropLast := by
  have hl : l = l.dropLast ++ [o] := by
    have hne : l ≠ [] := by rintro rfl; simp at ho
    rw [List.getLast?_eq_getLast _ hne] at ho
    have := List.dropLast_append_getLast hne
    rw [Option.some.inj ho] at this
    exact this.symm
  have hn2 := hn
  rw [hl, List.map_append, List.nodup_append] at hn2
  have hnot : g o ∉ l.dropLast.map g := by
    intro hm
    exact hn2.2.2 hm (by simp)
  conv_lhs => rw [hl]
  rw [List.filter_append, filter_ne_eq_self g hnot]
  simp

theorem mem_filter_ne {l : List α} {b : β} {x : α} :
    x ∈ l.filter (fun x => g x ≠ b) ↔ x ∈ l ∧ g x ≠ b := by
  simp [List.mem_filter]

theorem not_mem_map_filter_ne (l : List α) (b : β) :
    b ∉ (l.filter (fun x => g x ≠ b)).map g := by
  simp [List.mem_map, List.mem_filter]

end ListAux


/-! ## The index map -/

theorem mapGet_eq_none {m : List (String × Nat)} {k : String} :
    mapGet m k = none ↔ k ∉ m.map Prod.fst := by
  induction m with
  | nil => simp [mapGet]
  | cons p t ih =>
    obtain ⟨k1, a⟩ := p
    by_cases h : k1 = k
    · simp [mapGet, h]
    · simp [mapGet, h, ih, Ne.symm h]

theorem mapGet_eq_some {m : List (String × Nat)} (hn : (m.map Prod.fst).Nodup)
    {k : String} {a : Nat} : mapGet m k = some a ↔ (k, a) ∈ m := by
  induction m with
  | nil => simp [mapGet]
  | cons p t ih =>
    obtain ⟨k1, a1⟩ := p
    rw [List.map_cons, List.nodup_cons] at hn
    by_cases h : k1 = k
    · subst h
      have : ∀ b, (k1, b) ∉ t := fun b hb => hn.1 (List.mem_map.mpr ⟨(k1, b), hb, rfl⟩)
      simp [mapGet, this, eq_comm]
    · simp [mapGet, h, ih hn.2, Ne.symm h]

/-! ## Consistent shards -/

namespace cache

theorem consistent.indexKeys_perm {c : cache V} (h : c.consistent) :
    c.indexKeys.Perm c.keys := by
  have := h.index_perm.map Prod.fst
  simpa [indexKeys, keys, List.map_map, Function.comp_def] using this

theorem consistent.length_index {c : cache V} (h : c.consistent) :
    c.indexMap.length = c.list.length := by
  simpa using h.index_perm.length_eq

theorem consistent.mapGet_none {c : cache V} (h : c.consistent) {k : String} :
    mapGet c.indexMap k = none ↔ k ∉ c.keys := by
  rw [mapGet_eq_none]
  exact not_congr h.indexKeys_perm.mem_iff

theorem consistent.mapGet_some {c : cache V} (h : c.consistent) {k : String} {a : Nat} :
    mapGet c.indexMap k = some a ↔ ∃ e ∈ c.list, e.Value.key = k ∧ e.addr = a := by
  have hn : (c.indexMap.map Prod.fst).Nodup := h.indexKeys_perm.nodup_iff.mpr h.key_nodup
  rw [mapGet_eq_some hn, h.index_perm.mem_iff, List.mem_map]
  constructor
  · rintro ⟨e, he, heq⟩
    exact ⟨e, he, (Prod.mk.inj heq).1, (Prod.mk.inj heq).2⟩
  · rintro ⟨e, he, h1, h2⟩
    exact ⟨e, he, by rw [h1, h2]⟩

theorem consistent.addr_eq_iff {c : cache V} (h : c.consistent) {e x : Element V}
    (he : e ∈ c.list) (hx : x ∈ c.list) : x.addr = e.addr ↔ x.Value.key = e.Value.key := by
  constructor
  · intro hh
    rw [List.inj_on_of_nodup_map h.addr_nodup hx he hh]
  · intro hh
    rw [List.inj_on_of_nodup_map h.key_nodup hx he hh]

theorem consistent.deref {c : cache V} (h : c.consistent) {e : Element V} (he : e ∈ c.list) :
    Lru.deref c.list e.addr = some e :=
  find_of_mem_nodup (fun x : Element V => x.addr) h.addr_nodup he

theorem consistent.remove {c : cache V} (h : c.consistent) {e : Element V} (he : e ∈ c.list) :
    Remove c.list e.addr = c.list.filter (fun x => x.Value.key ≠ e.Value.key) := by
  unfold Remove
  apply List.filter_congr
  intro x hx
  simp only [ne_eq, decide_not, h.addr_eq_iff he hx]

theorem mem_keys {c : cache V} {k : String} :
    k ∈ c.keys ↔ ∃ e ∈ c.list, e.Value.key = k := by
  simp [keys, List.mem_map]

end cache

/-! ## The primitive updates keep a shard consistent -/

namespace cache

theorem consistent.of_perm {c : cache V} (h : c.consistent) {l : List (Element V)}
    (hp : l.Perm c.list) : consistent { c with list := l } where
  addr_nodup := (hp.map _).nodup_iff.mpr h.addr_nodup
  key_nodup := (hp.map _).nodup_iff.mpr h.key_nodup
  index_perm := h.index_perm.trans (hp.map _).symm
  addr_fresh := fun e he => h.addr_fresh e (hp.mem_iff.mp he)

theorem deref_mem {l : List (Element V)} {a : Nat} {e : Element V}
    (h : Lru.deref l a = some e) : e ∈ l ∧ e.addr = a := by
  unfold Lru.deref at h
  exact ⟨List.mem_of_find?_eq_some h, by simpa using List.find?_some h⟩

theorem consistent.moveToFront_eq {c : cache V} (h : c.consistent) {e : Element V}
    (he : e ∈ c.list) :
    MoveToFront c.list e.addr = e :: c.list.filter (fun x => x.Value.key ≠ e.Value.key) := by
  unfold MoveToFront
  rw [h.deref he, h.remove he]

theorem consistent.moveToFront {c : cache V} (h : c.consistent) (a : Nat) :
    consistent { c with list := MoveToFront c.list a } := by
  unfold MoveToFront
  cases hd : Lru.deref c.list a with
  | none => exact h
  | some e =>
    obtain ⟨he, rfl⟩ := deref_mem hd
    exact h.of_perm (perm_cons_filter_ne (fun x : Element V => x.addr) h.addr_nodup he).symm

theorem consistent.setEntry {c : cache V} (h : c.consistent) (a : Nat) (v : V) (x : Int) :
    consistent { c with list := Lru.setEntry c.list a v x } := by
  have h1 : (Lru.setEntry c.list a v x).map (fun e => e.addr) = c.list.map (fun e => e.addr) := by
    unfold Lru.setEntry
    rw [List.map_map]
    apply List.map_congr_left
    intro e _
    by_cases hh : e.addr = a <;> simp [hh]
  have h2 : (Lru.setEntry c.list a v x).map (fun e => e.Value.key)
      = c.list.map (fun e => e.Value.key) := by
    unfold Lru.setEntry
    rw [List.map_map]
    apply List.map_congr_left
    intro e _
    by_cases hh : e.addr = a <;> simp [hh]
  have h3 : (Lru.setEntry c.list a v x).map (fun e => (e.Value.key, e.addr))
      = c.list.map (fun e => (e.Value.key, e.addr)) := by
    unfold Lru.setEntry
    rw [List.map_map]
    apply List.map_congr_left
    intro e _
    by_cases hh : e.addr = a <;> simp [hh]
  refine ⟨?_, ?_, ?_, ?_⟩
  · show ((Lru.setEntry c.list a v x).map (fun e => e.addr)).Nodup
    rw [h1]; exact h.addr_nodup
  · show ((Lru.setEntry c.list a v x).map (fun e => e.Value.key)).Nodup
    rw [h2]; exact h.key_nodup
  · show c.indexMap.Perm ((Lru.setEntry c.list a v x).map (fun e => (e.Value.key, e.addr)))
    rw [h3]; exact h.index_perm
  · intro e he
    have : e.addr ∈ (Lru.setEntry c.list a v x).map (fun e => e.addr) :=
      List.mem_map_of_mem (fun e : Element V => e.addr) he
    rw [h1] at this
    obtain ⟨e1, he1, heq⟩ := List.mem_map.mp this
    rw [← heq]
    exact h.addr_fresh e1 he1

theorem consistent.removeElem {c : cache V} (h : c.consistent) {e : Element V}
    (he : e ∈ c.list) :
    consistent { c with
      indexMap := mapDelete c.indexMap e.Value.key
      list := Remove c.list e.addr } := by
  have hl := h.remove he
  refine ⟨?_, ?_, ?_, ?_⟩
  · exact h.addr_nodup.sublist (List.Sublist.map _ (List.filter_sublist _))
  · show ((Remove c.list e.addr).map (fun e => e.Value.key)).Nodup
    exact h.key_nodup.sublist (List.Sublist.map _ (List.filter_sublist _))
  · show (mapDelete c.indexMap e.Value.key).Perm
      ((Remove c.list e.addr).map (fun e => (e.Value.key, e.addr)))
    rw [hl]
    unfold mapDelete
    have := h.index_perm.filter (fun p : String × Nat => p.1 ≠ e.Value.key)
    rw [List.filter_map] at this
    exact this
  · intro x hx
    exact h.addr_fresh x (List.mem_of_mem_filter hx)

theorem consistent.pushElem {c : cache V} (h : c.consistent) {k : String}
    (hk : k ∉ c.keys) (v : V) (x : Int) :
    consistent { c with
      list := PushFront c.list { addr := c.fresh, Value := { key := k, value := v, expireAt := x } }
      indexMap := mapSet c.indexMap k c.fresh
      fresh := c.fresh + 1 } := by
  refine ⟨?_, ?_, ?_, ?_⟩
  · show ((PushFront c.list _).map (fun e => e.addr)).Nodup
    unfold PushFront
    rw [List.map_cons, List.nodup_cons]
    refine ⟨?_, h.addr_nodup⟩
    intro hm
    obtain ⟨e1, he1, heq⟩ := List.mem_map.mp hm
    have := h.addr_fresh e1 he1
    simp only at heq
    omega
  · show ((PushFront c.list _).map (fun e => e.Value.key)).Nodup
    unfold PushFront
    rw [List.map_cons, List.nodup_cons]
    exact ⟨hk, h.key_nodup⟩
  · show (mapSet c.indexMap k c.fresh).Perm
      ((PushFront c.list _).map (fun e => (e.Value.key, e.addr)))
    unfold PushFront mapSet mapDelete
    rw [List.map_cons]
    have hk2 : k ∉ c.indexMap.map Prod.fst := fun hm => hk (h.indexKeys_perm.mem_iff.mp hm)
    rw [filter_ne_eq_self Prod.fst hk2]
    exact h.index_perm.cons _
  · intro e he
    show e.addr < c.fresh + 1
    rcases List.mem_cons.mp he with rfl | he
    · exact Nat.lt_succ_self _
    · exact Nat.lt_succ_of_lt (h.addr_fresh e he)

theorem consistent_newCache (cap : Int) : (newCache cap : cache V).consistent :=
  ⟨List.nodup_nil, List.nodup_nil, List.Perm.nil, fun _ he => by cases he⟩

end cache

/-! ## What each shard operation does to a consistent shard -/

namespace cache

theorem back_mem {l : List (Element V)} {o : Element V} (h : Back l = some o) : o ∈ l :=
  List.mem_of_getLast?_eq_some h

@[simp] theorem put_capacity (c : cache V) (k : String) (v : V) (x : Int) :
    (c.put k v x).capacity = c.capacity := by
  unfold put
  cases mapGet c.indexMap k with
  | some a => rfl
  | none =>
    by_cases hc : Len c.list ≥ c.capacity
    · cases hb : Back c.list <;> simp [hc, hb]
    · simp [hc]

@[simp] theorem get_capacity (c : cache V) (k : String) (now : Int) :
    (c.get k now).2.capacity = c.capacity := by
  unfold get
  cases mapGet c.indexMap k with
  | none => rfl
  | some a =>
    dsimp only
    cases Lru.deref c.list a with
    | none => rfl
    | some e =>
      dsimp only
      split <;> rfl

@[simp] theorem del_capacity (c : cache V) (k : String) : (c.del k).capacity = c.capacity := by
  unfold del
  cases mapGet c.indexMap k <;> rfl

theorem consistent.put {c : cache V} (h : c.consistent) (k : String) (v : V) (x : Int) :
    (c.put k v x).consistent := by
  unfold cache.put
  cases hm : mapGet c.indexMap k with
  | some a => exact (h.setEntry a v x).moveToFront a
  | none =>
    have hk : k ∉ c.keys := h.mapGet_none.mp hm
    by_cases hc : Len c.list ≥ c.capacity
    · cases hb : Back c.list with
      | none =>
        simp only [hc, if_true]
        exact h.pushElem hk v x
      | some o =>
        simp only [hc, if_true]
        have ho := back_mem hb
        refine (h.removeElem ho).pushElem ?_ v x
        intro hmem
        obtain ⟨e, he, hek⟩ := mem_keys.mp hmem
        exact hk (mem_keys.mpr ⟨e, List.mem_of_mem_filter he, hek⟩)
    · simp only [hc, if_false]
      exact h.pushElem hk v x

theorem consistent.get {c : cache V} (h : c.consistent) (k : String) (now : Int) :
    (c.get k now).2.consistent := by
  unfold cache.get
  cases hm : mapGet c.indexMap k with
  | none => exact h
  | some a =>
    dsimp only
    cases hd : Lru.deref c.list a with
    | none => exact h
    | some e =>
      dsimp only
      obtain ⟨he, rfl⟩ := deref_mem hd
      obtain ⟨e1, he1, hk1, ha1⟩ := h.mapGet_some.mp hm
      have hee : e1 = e := List.inj_on_of_nodup_map h.addr_nodup he1 he ha1
      subst hee
      by_cases hl : e1.Value.expireAt = NoExpiration ∨ now < e1.Value.expireAt
      · simp only [hl, if_true]
        exact h.moveToFront _
      · simp only [hl, if_false]
        rw [← hk1]
        exact h.removeElem he

theorem consistent.del {c : cache V} (h : c.consistent) (k : String) :
    (c.del k).consistent := by
  unfold cache.del
  cases hm : mapGet c.indexMap k with
  | none => exact h
  | some a =>
    obtain ⟨e1, he1, hk1, ha1⟩ := h.mapGet_some.mp hm
    simp only
    rw [← hk1, ← ha1]
    exact h.removeElem he1

theorem consistent.step {c : cache V} (h : c.consistent) (op : Op V) :
    (c.step op).consistent := by
  cases op with
  | put k v x => exact h.put k v x
  | get k now => exact h.get k now
  | del k => exact h.del k

theorem consistent.run {c : cache V} (h : c.consistent) (ops : List (Op V)) :
    (c.run ops).consistent := by
  induction ops generalizing c with
  | nil => exact h
  | cons op t ih => exact ih (h.step op)

@[simp] theorem step_capacity (c : cache V) (op : Op V) : (c.step op).capacity = c.capacity := by
  cases op <;> simp [cache.step]

@[simp] theorem run_capacity (c : cache V) (ops : List (Op V)) :
    (c.run ops).capacity = c.capacity := by
  induction ops generalizing c with
  | nil => rfl
  | cons op t ih => simp only [cache.run, List.foldl_cons] at ih ⊢; rw [ih, step_capacity]

theorem run_append (c : cache V) (ops1 ops2 : List (Op V)) :
    c.run (ops1 ++ ops2) = (c.run ops1).run ops2 := by
  simp [cache.run, List.foldl_append]

theorem run_cons (c : cache V) (op : Op V) (ops : List (Op V)) :
    c.run (op :: ops) = (c.step op).run ops := rfl

/-! ### Entries after each operation -/

theorem entries_filter (l : List (Element V)) (k : String) :
    (l.filter (fun x => x.Value.key ≠ k)).map (fun e => e.Value)
      = (l.map (fun e => e.Value)).filter (fun e => e.key ≠ k) := by
  rw [List.filter_map]
  rfl

theorem keys_eq_entries (c : cache V) : c.keys = c.entries.map (fun e => e.key) := by
  simp [keys, entries, List.map_map, Function.comp_def]

theorem consistent.filter_setEntry {c : cache V} (h : c.consistent) {e : Element V}
    (he : e ∈ c.list) (v : V) (x : Int) :
    (Lru.setEntry c.list e.addr v x).filter (fun y => y.Value.key ≠ e.Value.key)
      = c.list.filter (fun y => y.Value.key ≠ e.Value.key) := by
  unfold Lru.setEntry
  rw [List.filter_map]
  have hp : ((fun y : Element V => decide (y.Value.key ≠ e.Value.key)) ∘
      (fun y : Element V => if y.addr = e.addr then
        { y with Value := { y.Value with value := v, expireAt := x } } else y))
      = (fun y : Element V => decide (y.Value.key ≠ e.Value.key)) := by
    funext y
    by_cases hy : y.addr = e.addr <;> simp [hy]
  rw [hp]
  conv_rhs => rw [← List.map_id (List.filter _ c.list)]
  apply List.map_congr_left
  intro y hy
  have hy1 := List.mem_of_mem_filter hy
  have hy2 : y.Value.key ≠ e.Value.key := by simpa using List.of_mem_filter hy
  have hy3 : y.addr ≠ e.addr := fun hh => hy2 ((h.addr_eq_iff he hy1).mp hh)
  simp [hy3]

theorem consistent.put_entries_mem {c : cache V} (h : c.consistent) {k : String}
    (hk : k ∈ c.keys) (v : V) (x : Int) :
    (c.put k v x).entries
      = { key := k, value := v, expireAt := x } :: c.entries.filter (fun e => e.key ≠ k) := by
  obtain ⟨e, he, hek⟩ := mem_keys.mp hk
  have hm : mapGet c.indexMap k = some e.addr := h.mapGet_some.mpr ⟨e, he, hek, rfl⟩
  have hs := h.setEntry e.addr v x
  have he2 : ({ e with Value := { e.Value with value := v, expireAt := x } } : Element V)
      ∈ Lru.setEntry c.list e.addr v x := by
    unfold Lru.setEntry
    exact List.mem_map.mpr ⟨e, he, by simp⟩
  have hmv := hs.moveToFront_eq he2
  simp only at hmv
  rw [h.filter_setEntry he] at hmv
  unfold cache.put
  rw [hm]
  simp only [entries]
  rw [hmv, List.map_cons, entries_filter]
  subst hek
  rfl

theorem consistent.put_entries_not_mem {c : cache V} (h : c.consistent) {k : String}
    (hk : k ∉ c.keys) (v : V) (x : Int) :
    (c.put k v x).entries
      = { key := k, value := v, expireAt := x } ::
          (if (c.entries.length : Int) ≥ c.capacity then c.entries.dropLast else c.entries) := by
  have hm : mapGet c.indexMap k = none := h.mapGet_none.mpr hk
  have hlen : (c.entries.length : Int) = Len c.list := by simp [entries, Len]
  unfold cache.put
  rw [hm, hlen]
  dsimp only
  by_cases hc : Len c.list ≥ c.capacity
  · simp only [hc, if_true]
    cases hb : Back c.list with
    | none =>
      have : c.list = [] := by simpa [Back] using hb
      simp [entries, PushFront, this]
    | some o =>
      have hr : Remove c.list o.addr = c.list.dropLast :=
        filter_ne_getLast (fun y : Element V => y.addr) h.addr_nodup hb
      simp only [entries, PushFront, hr, List.map_cons, List.map_dropLast]
  · simp only [hc, if_false]
    rfl

theorem consistent.del_entries {c : cache V} (h : c.consistent) (k : String) :
    (c.del k).entries = c.entries.filter (fun e => e.key ≠ k) := by
  unfold cache.del
  cases hm : mapGet c.indexMap k with
  | none =>
    have hk : k ∉ c.keys := h.mapGet_none.mp hm
    rw [keys_eq_entries] at hk
    rw [filter_ne_eq_self (fun e : cacheEntry V => e.key) hk]
  | some a =>
    obtain ⟨e, he, hek, hea⟩ := h.mapGet_some.mp hm
    dsimp only
    subst hek hea
    simp only [entries, h.remove he, entries_filter]

theorem consistent.get_not_mem {c : cache V} (h : c.consistent) {k : String}
    (hk : k ∉ c.keys) (now : Int) : c.get k now = ((none, false), c) := by
  unfold cache.get
  rw [h.mapGet_none.mpr hk]

/-- The record of a key in the order sequence. -/
theorem consistent.get_mem {c : cache V} (h : c.consistent) {e : Element V}
    (he : e ∈ c.list) (now : Int) :
    c.get e.Value.key now =
      if e.Value.expireAt = NoExpiration ∨ now < e.Value.expireAt then
        ((some e.Value.value, true), { c with list := MoveToFront c.list e.addr })
      else
        ((none, false),
          { c with indexMap := mapDelete c.indexMap e.Value.key, list := Remove c.list e.addr }) := by
  unfold cache.get
  rw [h.mapGet_some.mpr ⟨e, he, rfl, rfl⟩]
  dsimp only
  rw [h.deref he]

theorem consistent.get_live {c : cache V} (h : c.consistent) {e : Element V}
    (he : e ∈ c.list) {now : Int}
    (hl : e.Value.expireAt = NoExpiration ∨ now < e.Value.expireAt) :
    (c.get e.Value.key now).1 = (some e.Value.value, true) ∧
    (c.get e.Value.key now).2.entries
      = e.Value :: c.entries.filter (fun y => y.key ≠ e.Value.key) := by
  rw [h.get_mem he, if_pos hl]
  refine ⟨rfl, ?_⟩
  simp only [entries, h.moveToFront_eq he, List.map_cons, entries_filter]

theorem consistent.get_expired {c : cache V} (h : c.consistent) {e : Element V}
    (he : e ∈ c.list) {now : Int}
    (hl : ¬ (e.Value.expireAt = NoExpiration ∨ now < e.Value.expireAt)) :
    (c.get e.Value.key now).1 = (none, false) ∧
    (c.get e.Value.key now).2.entries = c.entries.filter (fun y => y.key ≠ e.Value.key) := by
  rw [h.get_mem he, if_neg hl]
  refine ⟨rfl, ?_⟩
  simp only [entries, h.remove he, entries_filter]

end cache

/-! ## Size of a shard -/

namespace cache

theorem entries_length (c : cache V) : c.entries.length = c.list.length := by
  simp [entries]

theorem mem_entries {c : cache V} {p : cacheEntry V} :
    p ∈ c.entries ↔ ∃ e ∈ c.list, e.Value = p := by
  simp [entries, List.mem_map]

theorem length_filter_key_lt {es : List (cacheEntry V)} {k : String}
    (hk : k ∈ es.map (fun e => e.key)) :
    (es.filter (fun e => e.key ≠ k)).length < es.length := by
  rw [List.length_filter_lt_length_iff_exists]
  obtain ⟨e, he, hek⟩ := List.mem_map.mp hk
  exact ⟨e, he, by simp [hek]⟩

theorem consistent.step_length_le {c : cache V} (h : c.consistent) (hc : 0 < c.capacity)
    (hl : (c.entries.length : Int) ≤ c.capacity) (op : Op V) :
    ((c.step op).entries.length : Int) ≤ c.capacity := by
  cases op with
  | put k v x =>
    simp only [cache.step]
    by_cases hk : k ∈ c.keys
    · rw [h.put_entries_mem hk]
      have := length_filter_key_lt (keys_eq_entries c ▸ hk)
      simp only [List.length_cons]
      omega
    · rw [h.put_entries_not_mem hk]
      by_cases hfull : (c.entries.length : Int) ≥ c.capacity
      · simp only [hfull, if_true, List.length_cons, List.length_dropLast]
        omega
      · simp only [hfull, if_false, List.length_cons]
        push_cast
        omega
  | get k now =>
    simp only [cache.step]
    by_cases hk : k ∈ c.keys
    · obtain ⟨e, he, rfl⟩ := mem_keys.mp hk
      have := length_filter_key_lt (keys_eq_entries c ▸ hk)
      by_cases hlive : e.Value.expireAt = NoExpiration ∨ now < e.Value.expireAt
      · rw [(h.get_live he hlive).2]
        simp only [List.length_cons]
        omega
      · rw [(h.get_expired he hlive).2]
        omega
    · rw [h.get_not_mem hk]
      exact hl
  | del k =>
    simp only [cache.step]
    rw [h.del_entries]
    have := List.length_filter_le (fun e : cacheEntry V => decide (e.key ≠ k)) c.entries
    omega

theorem consistent.run_length_le {c : cache V} (h : c.consistent) (hc : 0 < c.capacity)
    (hl : (c.entries.length : Int) ≤ c.capacity) (ops : List (Op V)) :
    ((c.run ops).entries.length : Int) ≤ c.capacity := by
  induction ops generalizing c with
  | nil => exact hl
  | cons op t ih =>
    rw [run_cons]
    have := ih (h.step op) (by simpa using hc) (by simpa using h.step_length_le hc hl op)
    simpa using this

end cache

/-- C1 (capacity invariant): in a shard created by `newCache` with a positive
capacity, after every prefix of every sequence of put/get/del calls the order
sequence and the index hold at most `capacity` entries, and so do the entries
that are live at any clock reading. -/
theorem capacity_invariant (cap : Int) (hcap : 0 < cap) (ops : List (Op V)) (n : Nat)
    (now : Int) :
    ((((newCache cap : cache V).run (ops.take n)).list.length : Int) ≤ cap) ∧
    ((((newCache cap : cache V).run (ops.take n)).indexMap.length : Int) ≤ cap) ∧
    (((((newCache cap : cache V).run (ops.take n)).live now).length : Int) ≤ cap) := by
  have h0 : (newCache cap : cache V).consistent := cache.consistent_newCache cap
  have hl := h0.run_length_le (by simpa [newCache] using hcap)
    (by simpa [newCache, cache.entries] using hcap.le) (ops.take n)
  have hc := h0.run (ops.take n)
  rw [cache.entries_length] at hl
  simp only [newCache] at hl
  refine ⟨hl, ?_, ?_⟩
  · rw [hc.length_index]; exact hl
  · have := List.length_filter_le
      (fun e : Element V => decide (e.Value.expireAt = NoExpiration ∨ now < e.Value.expireAt))
      ((newCache cap : cache V).run (ops.take n)).list
    unfold cache.live
    simp only [newCache] at this ⊢
    omega

theorem capacity_invariant_witness :
    0 < (2 : Int) ∧
    ((((newCache 2 : cache Nat).run
        ([Op.put "a" 1 0, Op.put "b" 2 5, Op.get "a" 7, Op.put "c" 3 0, Op.del "a"].take 4)).list.length
        : Int) ≤ 2) ∧
    ((((newCache 2 : cache Nat).run
        ([Op.put "a" 1 0, Op.put "b" 2 5, Op.get "a" 7, Op.put "c" 3 0, Op.del "a"].take 4)).indexMap.length
        : Int) ≤ 2) ∧
    (((((newCache 2 : cache Nat).run
        ([Op.put "a" 1 0, Op.put "b" 2 5, Op.get "a" 7, Op.put "c" 3 0, Op.del "a"].take 4)).live 9).length
        : Int) ≤ 2) :=
  ⟨by decide, capacity_invariant 2 (by decide) _ 4 9⟩

/-! ## Reads in terms of the stored entry -/

namespace cache

theorem consistent.entries_nodup {c : cache V} (h : c.consistent) :
    (c.entries.map (fun e => e.key)).Nodup := by
  rw [← keys_eq_entries]; exact h.key_nodup

theorem consistent.find_of_mem {c : cache V} (h : c.consistent) {p : cacheEntry V}
    (hp : p ∈ c.entries) : c.find p.key = some p :=
  find_of_mem_nodup (fun e : cacheEntry V => e.key) h.entries_nodup hp

theorem find_eq_none {c : cache V} {k : String} (hk : k ∉ c.keys) : c.find k = none := by
  rw [keys_eq_entries] at hk
  exact find_eq_none_of_not_mem (fun e : cacheEntry V => e.key) hk

theorem find_some_mem {c : cache V} {k : String} {p : cacheEntry V} (h : c.find k = some p) :
    p ∈ c.entries ∧ p.key = k :=
  ⟨List.mem_of_find?_eq_some h, by simpa using List.find?_some h⟩

theorem consistent.get_fst_of_mem {c : cache V} (h : c.consistent) {p : cacheEntry V}
    (hp : p ∈ c.entries) (now : Int) :
    (c.get p.key now).1 = if p.live now then (some p.value, true) else (none, false) := by
  obtain ⟨e, he, rfl⟩ := mem_entries.mp hp
  rw [h.get_mem he]
  unfold cacheEntry.live
  split <;> rfl

theorem consistent.get_fst {c : cache V} (h : c.consistent) (k : String) (now : Int) :
    (c.get k now).1 =
      match c.find k with
      | some p => if p.live now then (some p.value, true) else (none, false)
      | none => (none, false) := by
  cases hf : c.find k with
  | none =>
    have hk : k ∉ c.keys := by
      intro hk
      rw [keys_eq_entries] at hk
      obtain ⟨p, hp, rfl⟩ := List.mem_map.mp hk
      rw [h.find_of_mem hp] at hf
      cases hf
    rw [h.get_not_mem hk]
  | some p =>
    obtain ⟨hp, rfl⟩ := find_some_mem hf
    exact h.get_fst_of_mem hp now

/-! ## Distinct keys put into an empty shard -/

theorem run_map_putOp_snoc (c : cache V) (ps : List (cacheEntry V)) (p : cacheEntry V) :
    c.run ((ps ++ [p]).map putOp) = (c.run (ps.map putOp)).put p.key p.value p.expireAt := by
  rw [List.map_append, run_append]
  rfl

theorem entries_run_puts (C : Nat) (hC : 1 ≤ C) (ps : List (cacheEntry V))
    (hnd : (ps.map (fun e => e.key)).Nodup) :
    ((newCache (C : Int) : cache V).run (ps.map putOp)).entries = ps.reverse.take C := by
  induction ps using List.reverseRecOn with
  | nil => simp [cache.run, newCache, entries]
  | append_singleton ps p ih =>
    rw [List.map_append, List.nodup_append] at hnd
    have ih1 := ih hnd.1
    have hcons : ((newCache (C : Int) : cache V).run (ps.map putOp)).consistent :=
      (consistent_newCache _).run _
    have hk : p.key ∉ ((newCache (C : Int) : cache V).run (ps.map putOp)).keys := by
      rw [keys_eq_entries, ih1]
      intro hm
      obtain ⟨q, hq, hqk⟩ := List.mem_map.mp hm
      have hq2 : q ∈ ps := List.mem_reverse.mp (List.mem_of_mem_take hq)
      exact hnd.2.2 (List.mem_map_of_mem (fun e : cacheEntry V => e.key) hq2)
        (by simp [hqk])
    rw [run_map_putOp_snoc, hcons.put_entries_not_mem hk, ih1, run_capacity]
    simp only [newCache, List.reverse_append, List.reverse_singleton, List.singleton_append]
    obtain ⟨n, rfl⟩ : ∃ n, C = n + 1 := ⟨C - 1, by omega⟩
    rw [List.take_succ_cons]
    congr 1
    by_cases hfull : ((List.take (n + 1) ps.reverse).length : Int) ≥ ((n + 1 : Nat) : Int)
    · rw [if_pos hfull, List.dropLast_eq_take, List.take_take]
      congr 1
      have : (List.take (n + 1) ps.reverse).length = n + 1 := by
        have := List.length_take_le (n + 1) ps.reverse
        omega
      omega
    · rw [if_neg hfull]
      have hlt : ps.reverse.length < n + 1 := by
        by_contra hh
        apply hfull
        rw [List.length_take]
        have : min (n + 1) ps.reverse.length = n + 1 := by omega
        rw [this]
      rw [List.take_of_length_le (by omega), List.take_of_length_le (by omega)]

end cache

/-- C2 (LRU order correctness): `C + 1` entries with pairwise distinct keys are
put in order into an empty shard of capacity `C >= 1`.  Then a read of the
first key reports not-found at every clock reading, and a read of each of the
other `C` keys, at a clock reading at which that entry is not expired, returns
its value with found = true. -/
theorem lru_order_correctness (C : Nat) (hC : 1 ≤ C) (first : cacheEntry V)
    (rest : List (cacheEntry V)) (hlen : rest.length = C)
    (hnd : ((first :: rest).map (fun e => e.key)).Nodup) :
    (∀ now : Int,
      (((newCache (C : Int) : cache V).run ((first :: rest).map putOp)).get first.key now).1
        = (none, false)) ∧
    (∀ p ∈ rest, ∀ now : Int, p.live now →
      (((newCache (C : Int) : cache V).run ((first :: rest).map putOp)).get p.key now).1
        = (some p.value, true)) := by
  have hcons : ((newCache (C : Int) : cache V).run ((first :: rest).map putOp)).consistent :=
    (cache.consistent_newCache _).run _
  have hes := cache.entries_run_puts C hC (first :: rest) hnd
  have hrev : (first :: rest).reverse.take C = rest.reverse := by
    rw [List.reverse_cons, List.take_append_of_le_length (by simp [hlen]),
      List.take_of_length_le (by simp [hlen])]
  rw [hrev] at hes
  rw [List.map_cons, List.nodup_cons] at hnd
  constructor
  · intro now
    have hk : first.key ∉
        ((newCache (C : Int) : cache V).run ((first :: rest).map putOp)).keys := by
      rw [cache.keys_eq_entries, hes, List.map_reverse, List.mem_reverse]
      exact hnd.1
    rw [hcons.get_not_mem hk]
  · intro p hp now hlive
    have hmem : p ∈ ((newCache (C : Int) : cache V).run ((first :: rest).map putOp)).entries := by
      rw [hes]; exact List.mem_reverse.mpr hp
    rw [hcons.get_fst_of_mem hmem, if_pos hlive]

theorem lru_order_correctness_witness :
    (∀ now : Int,
      (((newCache ((2 : Nat) : Int) : cache Nat).run
        (([⟨"a", 1, 0⟩, ⟨"b", 2, 0⟩, ⟨"c", 3, 50⟩] : List (cacheEntry Nat)).map putOp)).get
          "a" now).1 = (none, false)) ∧
    (∀ p ∈ ([⟨"b", 2, 0⟩, ⟨"c", 3, 50⟩] : List (cacheEntry Nat)), ∀ now : Int, p.live now →
      (((newCache ((2 : Nat) : Int) : cache Nat).run
        (([⟨"a", 1, 0⟩, ⟨"b", 2, 0⟩, ⟨"c", 3, 50⟩] : List (cacheEntry Nat)).map putOp)).get
          p.key now).1 = (some p.value, true)) :=
  lru_order_correctness 2 (by decide) ⟨"a", 1, 0⟩ [⟨"b", 2, 0⟩, ⟨"c", 3, 50⟩] rfl (by decide)

/-- C3 (recency refresh): entries `a, b, ...` with pairwise distinct keys fill
an empty shard of capacity `C >= 2`.  A read of `a` at a clock reading at which
`a` is not expired succeeds, and after a following put of one more entry `z`
with a new key, a read of `b` reports not-found while a read of `a` (when `a`
is not expired) still returns the value of `a`. -/
theorem recency_refresh (C : Nat) (hC : 2 ≤ C) (a b z : cacheEntry V)
    (rest : List (cacheEntry V)) (hlen : (a :: b :: rest).length = C)
    (hnd : ((z :: a :: b :: rest).map (fun e => e.key)).Nodup)
    (now1 : Int) (hlive1 : a.live now1) :
    (((newCache (C : Int) : cache V).run ((a :: b :: rest).map putOp)).get a.key now1).1
        = (some a.value, true) ∧
    (∀ now : Int,
      (((((newCache (C : Int) : cache V).run ((a :: b :: rest).map putOp)).get a.key now1).2.put
          z.key z.value z.expireAt).get b.key now).1 = (none, false)) ∧
    (∀ now2 : Int, a.live now2 →
      (((((newCache (C : Int) : cache V).run ((a :: b :: rest).map putOp)).get a.key now1).2.put
          z.key z.value z.expireAt).get a.key now2).1 = (some a.value, true)) := by
  rw [List.map_cons, List.nodup_cons] at hnd
  obtain ⟨hz, hnd⟩ := hnd
  have hc1 : ((newCache (C : Int) : cache V).run ((a :: b :: rest).map putOp)).consistent :=
    (cache.consistent_newCache _).run _
  have he1 := cache.entries_run_puts C (by omega) (a :: b :: rest) hnd
  have hrev : (a :: b :: rest).reverse = (rest.reverse ++ [b]) ++ [a] := by simp
  rw [List.take_of_length_le (by simp at hlen ⊢; omega), hrev] at he1
  have ha1 : a ∈ ((newCache (C : Int) : cache V).run ((a :: b :: rest).map putOp)).entries := by
    rw [he1]; simp
  obtain ⟨ea, hea, heav⟩ := cache.mem_entries.mp ha1
  have hlive1e : ea.Value.expireAt = NoExpiration ∨ now1 < ea.Value.expireAt := by
    rw [heav]; exact hlive1
  have hg := hc1.get_live hea hlive1e
  rw [heav] at hg
  have hc2 := hc1.get a.key now1
  have hfilter : (rest.reverse ++ [b] ++ [a]).filter (fun y => y.key ≠ a.key)
      = rest.reverse ++ [b] := by
    have hn := hc1.entries_nodup
    rw [he1] at hn
    have := filter_ne_getLast (fun e : cacheEntry V => e.key) hn
      (show (rest.reverse ++ [b] ++ [a]).getLast? = some a by simp)
    rw [this, List.dropLast_concat]
  rw [he1, hfilter] at hg
  have hzk : z.key ∉
      (((newCache (C : Int) : cache V).run ((a :: b :: rest).map putOp)).get a.key now1).2.keys := by
    rw [cache.keys_eq_entries, hg.2]
    intro hm
    apply hz
    simp only [List.map_cons, List.map_append, List.map_reverse, List.mem_cons, List.mem_append,
      List.mem_reverse, List.mem_singleton, List.map_nil] at hm ⊢
    tauto
  have he3 := hc2.put_entries_not_mem hzk z.value z.expireAt
  have hc3 := hc2.put z.key z.value z.expireAt
  rw [hg.2, cache.get_capacity, cache.run_capacity] at he3
  have hfull : (((a :: (rest.reverse ++ [b])).length : Nat) : Int)
      ≥ (newCache (C : Int) : cache V).capacity := by
    simp only [newCache]
    simp at hlen ⊢
    omega
  rw [if_pos hfull] at he3
  have hdl : (a :: (rest.reverse ++ [b])).dropLast = a :: rest.reverse := by
    rw [← List.cons_append, List.dropLast_concat]
  rw [hdl] at he3
  rw [List.map_cons, List.nodup_cons, List.map_cons, List.nodup_cons] at hnd
  refine ⟨hg.1, ?_, ?_⟩
  · intro now
    have hbk : b.key ∉ ((((newCache (C : Int) : cache V).run
        ((a :: b :: rest).map putOp)).get a.key now1).2.put z.key z.value z.expireAt).keys := by
      rw [cache.keys_eq_entries, he3]
      simp only [List.map_cons, List.map_reverse, List.mem_cons, List.mem_reverse]
      rintro (h | h | h)
      · exact hz (by simp [h])
      · exact hnd.1 (by simp [h])
      · exact hnd.2.1 h
    rw [hc3.get_not_mem hbk]
  · intro now2 hlive2
    have ha3 : a ∈ ((((newCache (C : Int) : cache V).run
        ((a :: b :: rest).map putOp)).get a.key now1).2.put z.key z.value z.expireAt).entries := by
      rw [he3]; simp
    rw [hc3.get_fst_of_mem ha3, if_pos hlive2]

theorem recency_refresh_witness :
    (((newCache ((2 : Nat) : Int) : cache Nat).run
        (([⟨"a", 1, 0⟩, ⟨"b", 2, 0⟩] : List (cacheEntry Nat)).map putOp)).get "a" 7).1
        = (some 1, true) ∧
    (∀ now : Int,
      (((((newCache ((2 : Nat) : Int) : cache Nat).run
        (([⟨"a", 1, 0⟩, ⟨"b", 2, 0⟩] : List (cacheEntry Nat)).map putOp)).get "a" 7).2.put
          "z" 9 0).get "b" now).1 = (none, false)) ∧
    (∀ now2 : Int, (⟨"a", 1, 0⟩ : cacheEntry Nat).live now2 →
      (((((newCache ((2 : Nat) : Int) : cache Nat).run
        (([⟨"a", 1, 0⟩, ⟨"b", 2, 0⟩] : List (cacheEntry Nat)).map putOp)).get "a" 7).2.put
          "z" 9 0).get "a" now2).1 = (some 1, true)) :=
  recency_refresh 2 (by decide) ⟨"a", 1, 0⟩ ⟨"b", 2, 0⟩ ⟨"z", 9, 0⟩ [] rfl (by decide) 7
    (by decide)

/-! ## The order sequence is sorted by last use -/

namespace cache

theorem consistent.step_keys_used {c : cache V} (h : c.consistent) {op : Op V}
    (hu : c.uses op = true) :
    ∃ l, (c.step op).keys = op.key :: l ∧ l.Sublist c.keys ∧ op.key ∉ l := by
  cases op with
  | put k v x =>
    simp only [cache.step, Op.key]
    by_cases hk : k ∈ c.keys
    · refine ⟨(c.entries.filter (fun e => e.key ≠ k)).map (fun e => e.key), ?_, ?_, ?_⟩
      · rw [keys_eq_entries, h.put_entries_mem hk, List.map_cons]
      · rw [keys_eq_entries]
        exact List.Sublist.map _ (List.filter_sublist _)
      · exact not_mem_map_filter_ne (fun e : cacheEntry V => e.key) _ _
    · refine ⟨(if (c.entries.length : Int) ≥ c.capacity then c.entries.dropLast
          else c.entries).map (fun e => e.key), ?_, ?_, ?_⟩
      · rw [keys_eq_entries, h.put_entries_not_mem hk, List.map_cons]
      · rw [keys_eq_entries]
        apply List.Sublist.map
        split
        · exact List.dropLast_sublist _
        · exact List.Sublist.refl _
      · intro hm
        apply hk
        rw [keys_eq_entries]
        obtain ⟨q, hq, hqk⟩ := List.mem_map.mp hm
        refine List.mem_map.mpr ⟨q, ?_, hqk⟩
        split at hq
        · exact (List.dropLast_sublist _).subset hq
        · exact hq
  | get k now =>
    simp only [cache.step, Op.key]
    simp only [cache.uses] at hu
    by_cases hk : k ∈ c.keys
    · obtain ⟨e, he, rfl⟩ := mem_keys.mp hk
      by_cases hlive : e.Value.expireAt = NoExpiration ∨ now < e.Value.expireAt
      · refine ⟨(c.entries.filter (fun y => y.key ≠ e.Value.key)).map (fun e => e.key),
          ?_, ?_, ?_⟩
        · rw [keys_eq_entries, (h.get_live he hlive).2, List.map_cons]
        · rw [keys_eq_entries]
          exact List.Sublist.map _ (List.filter_sublist _)
        · exact not_mem_map_filter_ne (fun e : cacheEntry V => e.key) _ _
      · rw [(h.get_expired he hlive).1] at hu
        cases hu
    · rw [h.get_not_mem hk] at hu
      cases hu
  | del k => cases hu

theorem consistent.step_keys_unused {c : cache V} (h : c.consistent) {op : Op V}
    (hu : c.uses op = false) : (c.step op).keys.Sublist c.keys := by
  cases op with
  | put k v x => cases hu
  | get k now =>
    simp only [cache.step]
    simp only [cache.uses] at hu
    by_cases hk : k ∈ c.keys
    · obtain ⟨e, he, rfl⟩ := mem_keys.mp hk
      by_cases hlive : e.Value.expireAt = NoExpiration ∨ now < e.Value.expireAt
      · rw [(h.get_live he hlive).1] at hu
        cases hu
      · rw [keys_eq_entries, keys_eq_entries, (h.get_expired he hlive).2]
        exact List.Sublist.map _ (List.filter_sublist _)
    · rw [h.get_not_mem hk]
  | del k =>
    simp only [cache.step]
    rw [keys_eq_entries, keys_eq_entries, h.del_entries]
    exact List.Sublist.map _ (List.filter_sublist _)

/-- The victim of a put: an element whose key the put removes is the last
element of the order sequence. -/
theorem consistent.victim_is_last {c : cache V} (h : c.consistent) (k : String) (v : V)
    (x : Int) {e : Element V} (he : e ∈ c.list) (hgone : e.Value.key ∉ (c.put k v x).keys) :
    c.list.getLast? = some e := by
  have hev : e.Value ∈ c.entries := mem_entries.mpr ⟨e, he, rfl⟩
  by_cases hk : k ∈ c.keys
  · exfalso
    apply hgone
    rw [keys_eq_entries, h.put_entries_mem hk, List.map_cons]
    by_cases hek : e.Value.key = k
    · simp [hek]
    · refine List.mem_cons_of_mem _ (List.mem_map.mpr ⟨e.Value, ?_, rfl⟩)
      simp [List.mem_filter, hev, hek]
  · rw [keys_eq_entries, h.put_entries_not_mem hk, List.map_cons] at hgone
    have hne : c.list ≠ [] := List.ne_nil_of_mem he
    have hsplit := List.dropLast_append_getLast hne
    have hnot : e ∉ c.list.dropLast := by
      intro hmem
      apply hgone
      refine List.mem_cons_of_mem _ (List.mem_map.mpr ⟨e.Value, ?_, rfl⟩)
      split
      · simp only [entries, List.dropLast_eq_take, List.length_map, ← List.map_take]
        rw [List.dropLast_eq_take] at hmem
        exact List.mem_map.mpr ⟨e, hmem, rfl⟩
      · exact hev
    rw [← hsplit, List.mem_append, List.mem_singleton] at he
    rcases he with he | he
    · exact absurd he hnot
    · rw [List.getLast?_eq_getLast _ hne, he]

end cache

theorem Stamped.sorted_step {s : Stamped V} (h : s.sorted) (op : Op V) :
    (s.step op).sorted := by
  cases hu : s.shard.uses op with
  | true =>
    obtain ⟨l, hl, hsub, hnot⟩ := h.shard_consistent.step_keys_used hu
    refine ⟨h.shard_consistent.step op, ?_, ?_⟩
    · intro k
      simp only [Stamped.step, hu, if_true]
      by_cases hk : k = op.key
      · simp [hk]
      · simp only [hk, if_false]
        exact Nat.le_succ_of_le (h.le_clock k)
    · show ((s.shard.step op).keys).Pairwise _
      rw [hl, List.pairwise_cons]
      constructor
      · intro k2 hk2
        have hne : k2 ≠ op.key := fun hh => hnot (hh ▸ hk2)
        simp only [Stamped.step, hu, if_true, hne, if_false]
        exact Nat.lt_succ_of_le (h.le_clock k2)
      · refine (h.pairwise.sublist hsub).imp_of_mem ?_
        intro a b ha hb hab
        have hane : a ≠ op.key := fun hh => hnot (hh ▸ ha)
        have hbne : b ≠ op.key := fun hh => hnot (hh ▸ hb)
        simpa only [Stamped.step, hu, if_true, hane, hbne, if_false] using hab
  | false =>
    refine ⟨h.shard_consistent.step op, ?_, ?_⟩
    · intro k
      simp only [Stamped.step, hu]
      exact Nat.le_succ_of_le (h.le_clock k)
    · show ((s.shard.step op).keys).Pairwise _
      simp only [Stamped.step, hu]
      exact h.pairwise.sublist (h.shard_consistent.step_keys_unused hu)

theorem Stamped.foldl_sorted {s : Stamped V} (h : s.sorted) (ops : List (Op V)) :
    (ops.foldl Stamped.step s).sorted := by
  induction ops generalizing s with
  | nil => exact h
  | cons op t ih => exact ih (Stamped.sorted_step h op)

theorem Stamped.foldl_shard (s : Stamped V) (ops : List (Op V)) :
    (ops.foldl Stamped.step s).shard = s.shard.run ops := by
  induction ops generalizing s with
  | nil => rfl
  | cons op t ih => rw [List.foldl_cons, ih]; rfl

/-- C4 (the eviction victim is the least recently used entry): run any
sequence of put/get/del calls on a shard created by `newCache`, recording for
each key the number of the last call that put it or read it successfully.
Then the order sequence is sorted by last use, most recent first, and whenever
a further put removes the key of a stored entry, that entry is the last
element of the order sequence and every other stored entry was used strictly
later. -/
theorem eviction_victim_is_lru (cap : Int) (ops : List (Op V)) :
    (Stamped.run (newCache cap) ops).shard = (newCache cap : cache V).run ops ∧
    ((Stamped.run (newCache cap) ops).shard.keys.Pairwise
      (fun k1 k2 => (Stamped.run (newCache cap) ops).lastUse k2
        < (Stamped.run (newCache cap) ops).lastUse k1)) ∧
    (∀ (k : String) (v : V) (x : Int), ∀ e ∈ (Stamped.run (newCache cap) ops).shard.list,
      e.Value.key ∉ ((Stamped.run (newCache cap) ops).shard.put k v x).keys →
      (Stamped.run (newCache cap) ops).shard.list.getLast? = some e ∧
      ∀ e2 ∈ (Stamped.run (newCache cap) ops).shard.list, e2 ≠ e →
        (Stamped.run (newCache cap) ops).lastUse e.Value.key
          < (Stamped.run (newCache cap) ops).lastUse e2.Value.key) := by
  have h0 : (⟨newCache cap, 0, fun _ => 0⟩ : Stamped V).sorted :=
    ⟨cache.consistent_newCache cap, fun _ => Nat.le_refl _, List.Pairwise.nil⟩
  have hs : (Stamped.run (newCache cap : cache V) ops).sorted := Stamped.foldl_sorted h0 ops
  refine ⟨Stamped.foldl_shard _ ops, hs.pairwise, ?_⟩
  intro k v x e he hgone
  have hlast := hs.shard_consistent.victim_is_last k v x he hgone
  refine ⟨hlast, ?_⟩
  intro e2 he2 hne
  have hnil : (Stamped.run (newCache cap : cache V) ops).shard.list ≠ [] := List.ne_nil_of_mem he
  have hsplit := List.dropLast_append_getLast hnil
  rw [List.getLast?_eq_getLast _ hnil] at hlast
  rw [Option.some.inj hlast] at hsplit
  have hp := hs.pairwise
  rw [cache.keys, ← hsplit, List.map_append, List.pairwise_append] at hp
  rw [← hsplit, List.mem_append, List.mem_singleton] at he2
  rcases he2 with he2 | he2
  · exact hp.2.2 _ (List.mem_map_of_mem (fun e : Element V => e.Value.key) he2) _ (by simp)
  · exact absurd he2 hne

theorem eviction_victim_is_lru_witness :
    (Stamped.run (newCache 2) [Op.put "a" 1 0, Op.put "b" 2 0, Op.get "a" 5]).shard.list.getLast?
      = some ⟨1, ⟨"b", 2, 0⟩⟩ ∧
    ∀ e2 ∈ (Stamped.run (newCache 2) [Op.put "a" 1 0, Op.put "b" 2 0, Op.get "a" 5]).shard.list,
      e2 ≠ (⟨1, ⟨"b", 2, 0⟩⟩ : Element Nat) →
      (Stamped.run (newCache 2) [Op.put "a" 1 0, Op.put "b" 2 0, Op.get "a" 5]).lastUse "b"
        < (Stamped.run (newCache 2) [Op.put "a" 1 0, Op.put "b" 2 0, Op.get "a" 5]).lastUse
            e2.Value.key :=
  (eviction_victim_is_lru 2 [Op.put "a" 1 0, Op.put "b" 2 0, Op.get "a" 5]).2.2 "c" 3 0
    ⟨1, ⟨"b", 2, 0⟩⟩ (by decide) (by decide)

/-! ## The entry stored under a key, across calls -/

namespace cache

theorem find_filter_ne (es : List (cacheEntry V)) {k k1 : String} (hne : k1 ≠ k) :
    (es.filter (fun e => e.key ≠ k1)).find? (fun e => e.key = k)
      = es.find? (fun e => e.key = k) := by
  rw [List.find?_filter]
  congr 1
  funext e
  by_cases hk : e.key = k
  · simp [hk, Ne.symm hne]
  · simp [hk]

theorem find_filter_self (es : List (cacheEntry V)) (k : String) :
    (es.filter (fun e => e.key ≠ k)).find? (fun e => e.key = k) = none := by
  rw [List.find?_eq_none]
  intro e he
  have := List.of_mem_filter he
  simpa using this

theorem find_dropLast (es : List (cacheEntry V)) (p : cacheEntry V → Bool) :
    es.dropLast.find? p = es.find? p ∨ es.dropLast.find? p = none := by
  by_cases hne : es = []
  · subst hne; simp
  · cases hf : es.dropLast.find? p with
    | none => exact Or.inr rfl
    | some q =>
      left
      conv_rhs => rw [← List.dropLast_append_getLast hne, List.find?_append, hf]
      rfl

theorem find_put_self {c : cache V} (h : c.consistent) (k : String) (v : V) (x : Int) :
    (c.put k v x).find k = some { key := k, value := v, expireAt := x } := by
  unfold cache.find
  by_cases hk : k ∈ c.keys
  · rw [h.put_entries_mem hk]; simp
  · rw [h.put_entries_not_mem hk]; simp

theorem find_put_ne {c : cache V} (h : c.consistent) {k k1 : String} (hne : k1 ≠ k)
    (v : V) (x : Int) :
    (c.put k1 v x).find k = c.find k ∨ (c.put k1 v x).find k = none := by
  unfold cache.find
  by_cases hk : k1 ∈ c.keys
  · rw [h.put_entries_mem hk, List.find?_cons_of_neg _ (by simpa using hne),
      find_filter_ne _ hne]
    exact Or.inl rfl
  · rw [h.put_entries_not_mem hk, List.find?_cons_of_neg _ (by simpa using hne)]
    split
    · exact find_dropLast _ _
    · exact Or.inl rfl

theorem find_del {c : cache V} (h : c.consistent) (k k1 : String) :
    (c.del k1).find k = c.find k ∨ (c.del k1).find k = none := by
  unfold cache.find
  rw [h.del_entries]
  by_cases hne : k1 = k
  · subst hne; exact Or.inr (find_filter_self _ _)
  · exact Or.inl (find_filter_ne _ hne)

theorem find_get {c : cache V} (h : c.consistent) (k k1 : String) (now : Int) :
    (c.get k1 now).2.find k = c.find k ∨ (c.get k1 now).2.find k = none := by
  by_cases hk : k1 ∈ c.keys
  · obtain ⟨e, he, rfl⟩ := mem_keys.mp hk
    by_cases hlive : e.Value.expireAt = NoExpiration ∨ now < e.Value.expireAt
    · left
      have hev : e.Value ∈ c.entries := mem_entries.mpr ⟨e, he, rfl⟩
      unfold cache.find
      rw [(h.get_live he hlive).2]
      by_cases hne : e.Value.key = k
      · have := h.find_of_mem hev
        unfold cache.find at this
        rw [← hne, this]
        simp
      · rw [List.find?_cons_of_neg _ (by simpa using hne), find_filter_ne _ hne]
    · unfold cache.find
      rw [(h.get_expired he hlive).2]
      by_cases hne : e.Value.key = k
      · subst hne; exact Or.inr (find_filter_self _ _)
      · exact Or.inl (find_filter_ne _ hne)
  · rw [h.get_not_mem hk]
    exact Or.inl rfl

theorem find_get_live {c : cache V} (h : c.consistent) {k : String} {p : cacheEntry V}
    (hp : c.find k = some p) {now : Int} (hlive : p.live now) :
    (c.get k now).2.find k = some p := by
  obtain ⟨hmem, rfl⟩ := find_some_mem hp
  obtain ⟨e, he, rfl⟩ := mem_entries.mp hmem
  unfold cache.find
  rw [(h.get_live he hlive).2]
  simp

theorem find_del_self {c : cache V} (h : c.consistent) (k : String) :
    (c.del k).find k = none := by
  unfold cache.find
  rw [h.del_entries]
  exact find_filter_self _ _

theorem consistent.not_mem_keys_del {c : cache V} (h : c.consistent) (k : String) :
    k ∉ (c.del k).keys ∧ k ∉ (c.del k).indexKeys := by
  have h1 : k ∉ (c.del k).keys := by
    rw [keys_eq_entries, h.del_entries]
    exact not_mem_map_filter_ne (fun e : cacheEntry V => e.key) _ _
  exact ⟨h1, fun hm => h1 ((h.del k).indexKeys_perm.mem_iff.mp hm)⟩

theorem find_isSome_iff {c : cache V} {k : String} : (c.find k).isSome ↔ k ∈ c.keys := by
  constructor
  · intro hs
    obtain ⟨p, hp⟩ := Option.isSome_iff_exists.mp hs
    obtain ⟨hmem, rfl⟩ := find_some_mem hp
    rw [keys_eq_entries]
    exact List.mem_map_of_mem (fun e : cacheEntry V => e.key) hmem
  · intro hk
    by_contra hs
    rw [Option.not_isSome_iff_eq_none] at hs
    unfold cache.find at hs
    rw [List.find?_eq_none] at hs
    rw [keys_eq_entries] at hk
    obtain ⟨p, hp, hpk⟩ := List.mem_map.mp hk
    exact hs p hp (by simpa using hpk)

end cache

/-! ## The sharded cache: routing and the effect of one call -/

namespace Cache

theorem getShard_lt {c : Cache V} {key : String} {i : Nat} (h : c.getShard key = some i) :
    i < c.shards.length := by
  unfold getShard at h
  dsimp only at h
  split at h
  · cases h
  · split at h
    · cases h; assumption
    · cases h

theorem getShard_congr (c c1 : Cache V) (h1 : c1.shardCount = c.shardCount)
    (h2 : c1.shards.length = c.shards.length) (key : String) :
    c1.getShard key = c.getShard key := by
  unfold getShard
  rw [h1, h2]

@[simp] theorem getShard_setShard (c : Cache V) (i : Nat) (s : cache V) (key : String) :
    (c.setShard i s).getShard key = c.getShard key :=
  getShard_congr c (c.setShard i s) rfl (by simp [setShard]) key

@[simp] theorem expiration_setShard (c : Cache V) (i : Nat) (s : cache V) :
    (c.setShard i s).expiration = c.expiration := rfl

theorem getShard_shard {c : Cache V} {key : String} {i : Nat} (h : c.getShard key = some i) :
    ∃ s, c.shards[i]? = some s := by
  cases hs : c.shards[i]? with
  | some s => exact ⟨s, rfl⟩
  | none =>
    have := getShard_lt h
    rw [List.getElem?_eq_none_iff] at hs
    omega

theorem consistent.setShard {c : Cache V} (h : c.consistent) (i : Nat) {s : cache V}
    (hs : s.consistent) : (c.setShard i s).consistent := by
  intro s1 hs1
  rcases List.mem_or_eq_of_mem_set hs1 with hm | rfl
  · exact h s1 hm
  · exact hs

theorem consistent.shard {c : Cache V} (h : c.consistent) {i : Nat} {s : cache V}
    (hs : c.shards[i]? = some s) : s.consistent :=
  h s (List.getElem?_mem hs)

theorem shards_setShard_self {c : Cache V} {i : Nat} {s : cache V}
    (hs : c.shards[i]? = some s) (s1 : cache V) : (c.setShard i s1).shards[i]? = some s1 := by
  obtain ⟨hlt, _⟩ := List.getElem?_eq_some.mp hs
  exact List.getElem?_set_self hlt

theorem shardOf_eq {c : Cache V} {key : String} {i : Nat} (h : c.getShard key = some i) :
    c.shardOf key = c.shards[i]? := by
  unfold shardOf; rw [h]

theorem stored_eq {c : Cache V} {key : String} {i : Nat} {s : cache V}
    (h : c.getShard key = some i) (hs : c.shards[i]? = some s) :
    c.stored key = s.find key := by
  unfold stored; rw [shardOf_eq h, hs]

theorem stored_setShard_self {c : Cache V} {key : String} {i : Nat} {s : cache V}
    (h : c.getShard key = some i) (hs : c.shards[i]? = some s) (s1 : cache V) :
    (c.setShard i s1).stored key = s1.find key :=
  stored_eq (by simpa using h) (shards_setShard_self hs s1)

theorem stored_setShard_frame {c : Cache V} {i : Nat} {s s1 : cache V}
    (hs : c.shards[i]? = some s) (key : String)
    (hf : s1.find key = s.find key ∨ s1.find key = none) :
    (c.setShard i s1).stored key = c.stored key ∨ (c.setShard i s1).stored key = none := by
  cases hr : c.getShard key with
  | none =>
    left
    unfold stored shardOf
    rw [getShard_setShard, hr]
  | some j =>
    by_cases hj : j = i
    · subst hj
      rw [stored_setShard_self hr hs, stored_eq hr hs]
      exact hf
    · left
      unfold stored shardOf
      rw [getShard_setShard, hr]
      simp only [setShard]
      rw [List.getElem?_set_ne (Ne.symm hj)]

theorem Put_eq {c : Cache V} {key : String} {i : Nat} {s : cache V}
    (h : c.getShard key = some i) (hs : c.shards[i]? = some s) (v : V) (now : Int) :
    c.Put key v now = some (c.setShard i (s.put key v (c.expireAt now))) := by
  unfold Cache.Put
  rw [h]
  dsimp only
  rw [hs]
  rfl

theorem Get_eq {c : Cache V} {key : String} {i : Nat} {s : cache V}
    (h : c.getShard key = some i) (hs : c.shards[i]? = some s) (now : Int) :
    c.Get key now = some ((s.get key now).1, c.setShard i (s.get key now).2) := by
  unfold Cache.Get
  rw [h]
  dsimp only
  rw [hs]
  rfl

theorem Del_eq {c : Cache V} {key : String} {i : Nat} {s : cache V}
    (h : c.getShard key = some i) (hs : c.shards[i]? = some s) :
    c.Del key = some (c.setShard i (s.del key)) := by
  unfold Cache.Del
  rw [h]
  dsimp only
  rw [hs]
  rfl

theorem Put_some {c c1 : Cache V} {key : String} {v : V} {now : Int}
    (h : c.Put key v now = some c1) :
    ∃ i s, c.getShard key = some i ∧ c.shards[i]? = some s := by
  unfold Cache.Put at h
  cases hr : c.getShard key with
  | none => rw [hr] at h; cases h
  | some i => exact ⟨i, getShard_shard hr |>.choose, rfl, (getShard_shard hr).choose_spec⟩

theorem Get_some {c : Cache V} {key : String} {now : Int} {r : (Option V × Bool) × Cache V}
    (h : c.Get key now = some r) :
    ∃ i s, c.getShard key = some i ∧ c.shards[i]? = some s := by
  unfold Cache.Get at h
  cases hr : c.getShard key with
  | none => rw [hr] at h; cases h
  | some i => exact ⟨i, getShard_shard hr |>.choose, rfl, (getShard_shard hr).choose_spec⟩

theorem Del_some {c c1 : Cache V} {key : String} (h : c.Del key = some c1) :
    ∃ i s, c.getShard key = some i ∧ c.shards[i]? = some s := by
  unfold Cache.Del at h
  cases hr : c.getShard key with
  | none => rw [hr] at h; cases h
  | some i => exact ⟨i, getShard_shard hr |>.choose, rfl, (getShard_shard hr).choose_spec⟩

/-- The result of `Get` is determined by the entry stored under the key. -/
theorem Get_fst {c : Cache V} (hc : c.consistent) {key : String} {i : Nat}
    (h : c.getShard key = some i) (now : Int) :
    ∃ r, c.Get key now = some r ∧
      r.1 = match c.stored key with
        | some p => if p.live now then (some p.value, true) else (none, false)
        | none => (none, false) := by
  obtain ⟨s, hs⟩ := getShard_shard h
  refine ⟨_, Get_eq h hs now, ?_⟩
  rw [stored_eq h hs]
  exact (hc.shard hs).get_fst key now

/-- One call keeps the cache consistent, the routing and the TTL, and, unless
it is a `Put` of `key`, keeps or removes the entry stored under `key`. -/
theorem step_frame {c c1 : Cache V} (hc : c.consistent) {op : COp V}
    (hstep : c.step op = some c1) (key : String) :
    c1.consistent ∧ (∀ k, c1.getShard k = c.getShard k) ∧ c1.expiration = c.expiration ∧
    (op.isPutOf key = false → c1.stored key = c.stored key ∨ c1.stored key = none) := by
  cases op with
  | Put k v now =>
    simp only [Cache.step] at hstep
    obtain ⟨i, s, hr, hs⟩ := Put_some hstep
    rw [Put_eq hr hs] at hstep
    cases hstep
    refine ⟨hc.setShard i ((hc.shard hs).put _ _ _), fun _ => getShard_setShard _ _ _ _, rfl,
      fun hop => ?_⟩
    have hne : k ≠ key := by simpa [COp.isPutOf] using hop
    exact stored_setShard_frame hs key (cache.find_put_ne (hc.shard hs) hne _ _)
  | Get k now =>
    simp only [Cache.step] at hstep
    cases hg : c.Get k now with
    | none => rw [hg] at hstep; cases hstep
    | some r =>
      obtain ⟨i, s, hr, hs⟩ := Get_some hg
      rw [Get_eq hr hs] at hstep
      cases hstep
      exact ⟨hc.setShard i ((hc.shard hs).get _ _), fun _ => getShard_setShard _ _ _ _, rfl,
        fun _ => stored_setShard_frame hs key (cache.find_get (hc.shard hs) key k now)⟩
  | Del k =>
    simp only [Cache.step] at hstep
    obtain ⟨i, s, hr, hs⟩ := Del_some hstep
    rw [Del_eq hr hs] at hstep
    cases hstep
    exact ⟨hc.setShard i ((hc.shard hs).del _), fun _ => getShard_setShard _ _ _ _, rfl,
      fun _ => stored_setShard_frame hs key (cache.find_del (hc.shard hs) key k)⟩
  | LRU2 n =>
    simp only [Cache.step] at hstep
    cases hstep
    refine ⟨?_, ?_, rfl, fun _ => Or.inr ?_⟩
    · intro s hs
      simp only [Cache.LRU2, List.mem_map] at hs
      obtain ⟨_, _, rfl⟩ := hs
      exact cache.consistent_newCache n
    · intro k
      exact getShard_congr c (c.LRU2 n) rfl (by simp [Cache.LRU2]) k
    · unfold stored shardOf
      cases hr : (c.LRU2 n).getShard key with
      | none => rfl
      | some j =>
        dsimp only
        cases hs : (c.LRU2 n).shards[j]? with
        | none => rfl
        | some s =>
          have hm := List.getElem?_mem hs
          simp only [Cache.LRU2, List.mem_map] at hm
          obtain ⟨_, _, rfl⟩ := hm
          rfl

/-- A sequence of calls without a `Put` of `key` keeps the cache consistent,
the routing and the TTL, and keeps or removes the entry stored under `key`. -/
theorem run_frame {c c1 : Cache V} (hc : c.consistent) {ops : List (COp V)}
    (hrun : c.run ops = some c1) (key : String) (hops : ∀ op ∈ ops, op.isPutOf key = false) :
    c1.consistent ∧ (∀ k, c1.getShard k = c.getShard k) ∧ c1.expiration = c.expiration ∧
    (c1.stored key = c.stored key ∨ c1.stored key = none) := by
  induction ops generalizing c with
  | nil =>
    simp only [Cache.run] at hrun
    cases hrun
    exact ⟨hc, fun _ => rfl, rfl, Or.inl rfl⟩
  | cons op t ih =>
    simp only [Cache.run] at hrun
    cases hs : c.step op with
    | none => rw [hs] at hrun; cases hrun
    | some c2 =>
      rw [hs] at hrun
      change c2.run t = some c1 at hrun
      obtain ⟨h1, h2, h3, h4⟩ := step_frame hc hs key
      have h4 := h4 (hops op (List.mem_cons_self _ _))
      obtain ⟨g1, g2, g3, g4⟩ := ih h1 hrun (fun o ho => hops o (List.mem_cons_of_mem _ ho))
      refine ⟨g1, fun k => (g2 k).trans (h2 k), g3.trans h3, ?_⟩
      rcases g4 with g4 | g4
      · rcases h4 with h4 | h4
        · exact Or.inl (g4.trans h4)
        · exact Or.inr (g4.trans h4)
      · exact Or.inr g4

/-- A call succeeds when every key is routed to a shard. -/
theorem step_total {c : Cache V} (hroute : ∀ key, ∃ i, c.getShard key = some i) (op : COp V) :
    ∃ c1, c.step op = some c1 := by
  cases op with
  | Put k v now =>
    obtain ⟨i, hi⟩ := hroute k
    obtain ⟨s, hs⟩ := getShard_shard hi
    exact ⟨_, Put_eq hi hs v now⟩
  | Get k now =>
    obtain ⟨i, hi⟩ := hroute k
    obtain ⟨s, hs⟩ := getShard_shard hi
    refine ⟨c.setShard i (s.get k now).2, ?_⟩
    simp only [Cache.step, Get_eq hi hs, Option.map_some']
  | Del k =>
    obtain ⟨i, hi⟩ := hroute k
    obtain ⟨s, hs⟩ := getShard_shard hi
    exact ⟨_, Del_eq hi hs⟩
  | LRU2 n => exact ⟨_, rfl⟩

/-- Every sequence of calls succeeds, and keeps the cache consistent and the
routing, when the cache is consistent and every key is routed to a shard. -/
theorem run_total {c : Cache V} (hc : c.consistent)
    (hroute : ∀ key, ∃ i, c.getShard key = some i) (ops : List (COp V)) :
    ∃ c1, c.run ops = some c1 ∧ c1.consistent ∧ (∀ k, c1.getShard k = c.getShard k) ∧
      c1.expiration = c.expiration := by
  induction ops generalizing c with
  | nil => exact ⟨c, rfl, hc, fun _ => rfl, rfl⟩
  | cons op t ih =>
    obtain ⟨c2, hstep⟩ := step_total hroute op
    obtain ⟨h1, h2, h3, _⟩ := step_frame hc hstep ""
    obtain ⟨c1, hrun, g1, g2, g3⟩ := ih h1 (fun key => by rw [h2]; exact hroute key)
    refine ⟨c1, ?_, g1, fun k => (g2 k).trans (h2 k), g3.trans h3⟩
    simp only [Cache.run, hstep, Option.some_bind]
    exact hrun

/-- The constructor, for a shard count from 1 to `2 ^ 32 - 1`: the cache is
built, it is consistent, its TTL is the first variadic argument (zero when
omitted), and every key is routed to a shard. -/
theorem NewLRUCache_routes (bucketCnt capPerBkt : Int) (expiration : List Int)
    (h1 : 0 < bucketCnt) (h2 : bucketCnt < 2 ^ 32) :
    ∃ c : Cache V, NewLRUCache bucketCnt capPerBkt expiration = some c ∧ c.consistent ∧
      c.expiration = expiration.headD 0 ∧ ∀ key, ∃ i, c.getShard key = some i := by
  unfold NewLRUCache
  rw [if_neg (by omega)]
  refine ⟨_, rfl, ?_, by cases expiration <;> rfl, ?_⟩
  · intro s hs
    rw [List.eq_of_mem_replicate hs]
    exact cache.consistent_newCache capPerBkt
  · intro key
    unfold getShard
    dsimp only
    have hmod : bucketCnt % 2 ^ 32 = bucketCnt := Int.emod_eq_of_lt (by omega) h2
    rw [hmod, if_neg (by omega)]
    have hlt : hash key % bucketCnt.toNat < bucketCnt.toNat := Nat.mod_lt _ (by omega)
    rw [List.length_replicate, if_pos hlt]
    exact ⟨_, rfl⟩

end Cache

/-! ## Put, then read -/

theorem wrapInt64_of_fits {x : Int} (h1 : -2 ^ 63 ≤ x) (h2 : x < 2 ^ 63) : wrapInt64 x = x := by
  unfold wrapInt64
  rw [Int.emod_eq_of_lt (by omega) (by omega)]
  omega

namespace Cache

theorem Put_stored {c : Cache V} (hc : c.consistent) {key : String} {i : Nat}
    (h : c.getShard key = some i) (v : V) (t : Int) :
    ∃ c1, c.Put key v t = some c1 ∧ c1.consistent ∧ (∀ k, c1.getShard k = c.getShard k) ∧
      c1.expiration = c.expiration ∧
      c1.stored key = some { key := key, value := v, expireAt := c.expireAt t } := by
  obtain ⟨s, hs⟩ := getShard_shard h
  refine ⟨_, Put_eq h hs v t, hc.setShard i ((hc.shard hs).put _ _ _),
    fun _ => getShard_setShard _ _ _ _, rfl, ?_⟩
  rw [stored_setShard_self h hs]
  exact cache.find_put_self (hc.shard hs) _ _ _

theorem Get_of_stored {c : Cache V} (hc : c.consistent) {key : String} {i : Nat}
    (h : c.getShard key = some i) {p : cacheEntry V} (hp : c.stored key = some p) (now : Int) :
    ∃ r, c.Get key now = some r ∧
      r.1 = if p.live now then (some p.value, true) else (none, false) := by
  obtain ⟨r, hr, hr1⟩ := Get_fst hc h now
  rw [hp] at hr1
  exact ⟨r, hr, hr1⟩

theorem Get_of_not_stored {c : Cache V} (hc : c.consistent) {key : String} {i : Nat}
    (h : c.getShard key = some i) (hp : c.stored key = none) (now : Int) :
    ∃ r, c.Get key now = some r ∧ r.1 = (none, false) := by
  obtain ⟨r, hr, hr1⟩ := Get_fst hc h now
  rw [hp] at hr1
  exact ⟨r, hr, hr1⟩

end Cache

/-- C5, as amended (TTL expiration): in a consistent cache with TTL `T > 0` in
which `key` is routed to a shard, let `Put(key, v)` run at clock time `t` with
`t + T` representable as an `int64`.  After any calls that do not put `key`
again, a `Get(key)` at a time `t2 < t + T` returns `(v, true)` when `key` is
still stored (it was not deleted, evicted, or dropped by an earlier read at or
after `t + T`), and a `Get(key)` at a time `t2 >= t + T` returns `(nil, false)`
provided `t + T` is not zero, the no-expiration sentinel. -/
theorem ttl_expiration (c : Cache V) (hc : c.consistent) (key : String) (i : Nat)
    (hroute : c.getShard key = some i) (hT : 0 < c.expiration) (v : V) (t : Int)
    (hlo : -2 ^ 63 ≤ t + c.expiration) (hhi : t + c.expiration < 2 ^ 63) :
    ∃ c1, c.Put key v t = some c1 ∧
      ∀ (ops : List (COp V)) (c2 : Cache V), (∀ op ∈ ops, op.isPutOf key = false) →
        c1.run ops = some c2 →
        (∀ t2 : Int, t2 < t + c.expiration → (c2.stored key).isSome →
          ∃ r, c2.Get key t2 = some r ∧ r.1 = (some v, true)) ∧
        (∀ t2 : Int, t + c.expiration ≤ t2 → t + c.expiration ≠ 0 →
          ∃ r, c2.Get key t2 = some r ∧ r.1 = (none, false)) := by
  obtain ⟨c1, hput, hc1, hr1, _, hst1⟩ := Cache.Put_stored hc hroute v t
  have hexp : c.expireAt t = t + c.expiration := by
    unfold Cache.expireAt
    rw [if_pos hT, wrapInt64_of_fits hlo hhi]
  rw [hexp] at hst1
  refine ⟨c1, hput, ?_⟩
  intro ops c2 hops hrun
  obtain ⟨hc2, hr2, _, hst2⟩ := Cache.run_frame hc1 hrun key hops
  have hroute2 : c2.getShard key = some i := by rw [hr2, hr1, hroute]
  constructor
  · intro t2 ht2 hsome
    have hst : c2.stored key = some { key := key, value := v, expireAt := t + c.expiration } := by
      rcases hst2 with h | h
      · rw [h, hst1]
      · rw [h] at hsome; cases hsome
    obtain ⟨r, hr, hrv⟩ := Cache.Get_of_stored hc2 hroute2 hst t2
    refine ⟨r, hr, ?_⟩
    have hlive : ({ key := key, value := v, expireAt := t + c.expiration } : cacheEntry V).live t2 :=
      Or.inr ht2
    rw [hrv, if_pos hlive]
  · intro t2 ht2 hne
    rcases hst2 with h | h
    · obtain ⟨r, hr, hrv⟩ := Cache.Get_of_stored hc2 hroute2 (h.trans hst1) t2
      refine ⟨r, hr, ?_⟩
      have hdead :
          ¬ ({ key := key, value := v, expireAt := t + c.expiration } : cacheEntry V).live t2 := by
        unfold cacheEntry.live NoExpiration
        simp only [not_or, not_lt]
        exact ⟨hne, ht2⟩
      rw [hrv, if_neg hdead]
    · exact Cache.Get_of_not_stored hc2 hroute2 h t2

theorem ttl_expiration_witness :
    ∃ c1, (⟨[newCache 2], 1, 10⟩ : Cache Nat).Put "key1" 7 100 = some c1 ∧
      ∀ (ops : List (COp Nat)) (c2 : Cache Nat), (∀ op ∈ ops, op.isPutOf "key1" = false) →
        c1.run ops = some c2 →
        (∀ t2 : Int, t2 < 100 + (⟨[newCache 2], 1, 10⟩ : Cache Nat).expiration →
          (c2.stored "key1").isSome →
          ∃ r, c2.Get "key1" t2 = some r ∧ r.1 = (some 7, true)) ∧
        (∀ t2 : Int, 100 + (⟨[newCache 2], 1, 10⟩ : Cache Nat).expiration ≤ t2 →
          100 + (⟨[newCache 2], 1, 10⟩ : Cache Nat).expiration ≠ 0 →
          ∃ r, c2.Get "key1" t2 = some r ∧ r.1 = (none, false)) :=
  ttl_expiration ⟨[newCache 2], 1, 10⟩
    (fun s hs => by
      rw [List.mem_singleton] at hs
      rw [hs]
      exact cache.consistent_newCache 2)
    "key1" 0 (by decide) (by decide) 7 100 (by decide) (by decide)

/-- C5 as stated fails: with the largest `time.Duration` as TTL, a `Put` at a
clock time of the year 2023 stores a wrapped, negative expiry, so a `Get` at
that same instant already reports not-found; and with a clock reading of `-5`
and a TTL of `5` the stored expiry is `0`, the no-expiration sentinel, so a
`Get` long after `t + T` still returns the value. -/
theorem ttl_expiration_counterexample :
    ((0 : Int) < 16 ∧ (0 : Int) < 128 ∧ (0 : Int) < 9223372036854775807 ∧
      (1700000000000000000 : Int) < 1700000000000000000 + 9223372036854775807 ∧
      ((NewLRUCache 16 128 [9223372036854775807] : Option (Cache Nat)).bind (fun c =>
        (c.Put "key1" 1 1700000000000000000).bind (fun c1 =>
          (c1.Get "key1" 1700000000000000000).map Prod.fst))) = some (none, false)) ∧
    ((0 : Int) < 5 ∧ (-5 : Int) + 5 ≤ 1000 ∧
      ((NewLRUCache 16 128 [5] : Option (Cache Nat)).bind (fun c =>
        (c.Put "key1" 1 (-5)).bind (fun c1 =>
          (c1.Get "key1" 1000).map Prod.fst))) = some (some 1, true)) := by
  refine ⟨⟨by decide, by decide, by decide, by decide, ?_⟩, by decide, by decide, ?_⟩
  · decide
  · decide

namespace Cache

/-- Consecutive reads of a key whose entry never expires all succeed and keep
the entry. -/
theorem run_gets {c : Cache V} (hc : c.consistent) {key : String} {i : Nat}
    (h : c.getShard key = some i) {p : cacheEntry V} (hp : c.stored key = some p)
    (hne : p.expireAt = NoExpiration) (nows : List Int) :
    ∃ c2, c.run (nows.map (COp.Get key)) = some c2 ∧ c2.consistent ∧
      c2.getShard key = some i ∧ c2.stored key = some p := by
  induction nows generalizing c with
  | nil => exact ⟨c, rfl, hc, h, hp⟩
  | cons now t ih =>
    obtain ⟨s, hs⟩ := getShard_shard h
    have hfind : s.find key = some p := by rw [← stored_eq h hs]; exact hp
    have hstep : c.step (COp.Get key now) = some (c.setShard i (s.get key now).2) := by
      simp only [Cache.step, Get_eq h hs, Option.map_some']
    obtain ⟨c2, hrun, h2⟩ := ih (hc.setShard i ((hc.shard hs).get key now))
      (by simpa using h)
      (by rw [stored_setShard_self h hs]
          exact cache.find_get_live (hc.shard hs) hfind (Or.inl hne))
    refine ⟨c2, ?_, h2⟩
    simp only [List.map_cons, Cache.run, hstep, Option.some_bind]
    exact hrun

end Cache

/-- C6 (no TTL means no expiry): in a consistent cache without TTL in which
`key` is routed to a shard, `Put(key, v)` succeeds, and afterwards (a) after
any calls that do not put `key` again, while `key` is still stored (it was not
deleted or evicted), `Get(key)` returns `(v, true)` at every clock reading,
and (b) any number of consecutive `Get(key)` calls, at any clock readings, all
return `(v, true)`. -/
theorem no_ttl_no_expiry (c : Cache V) (hc : c.consistent) (key : String) (i : Nat)
    (hroute : c.getShard key = some i) (hT : c.expiration = 0) (v : V) (t : Int) :
    ∃ c1, c.Put key v t = some c1 ∧
      (∀ (ops : List (COp V)) (c2 : Cache V), (∀ op ∈ ops, op.isPutOf key = false) →
        c1.run ops = some c2 → (c2.stored key).isSome →
        ∀ now : Int, ∃ r, c2.Get key now = some r ∧ r.1 = (some v, true)) ∧
      (∀ nows : List Int, ∃ c2, c1.run (nows.map (COp.Get key)) = some c2 ∧
        ∀ now : Int, ∃ r, c2.Get key now = some r ∧ r.1 = (some v, true)) := by
  obtain ⟨c1, hput, hc1, hr1, _, hst1⟩ := Cache.Put_stored hc hroute v t
  have hexp : c.expireAt t = NoExpiration := by
    unfold Cache.expireAt
    rw [if_neg (by omega)]
  rw [hexp] at hst1
  have hroute1 : c1.getShard key = some i := by rw [hr1, hroute]
  have hlive : ∀ now : Int,
      ({ key := key, value := v, expireAt := NoExpiration } : cacheEntry V).live now :=
    fun _ => Or.inl rfl
  refine ⟨c1, hput, ?_, ?_⟩
  · intro ops c2 hops hrun hsome now
    obtain ⟨hc2, hr2, _, hst2⟩ := Cache.run_frame hc1 hrun key hops
    have hroute2 : c2.getShard key = some i := by rw [hr2, hroute1]
    have hst : c2.stored key = some { key := key, value := v, expireAt := NoExpiration } := by
      rcases hst2 with h | h
      · rw [h, hst1]
      · rw [h] at hsome; cases hsome
    obtain ⟨r, hr, hrv⟩ := Cache.Get_of_stored hc2 hroute2 hst now
    exact ⟨r, hr, by rw [hrv, if_pos (hlive now)]⟩
  · intro nows
    obtain ⟨c2, hrun, hc2, hroute2, hst⟩ := Cache.run_gets hc1 hroute1 hst1 rfl nows
    refine ⟨c2, hrun, fun now => ?_⟩
    obtain ⟨r, hr, hrv⟩ := Cache.Get_of_stored hc2 hroute2 hst now
    exact ⟨r, hr, by rw [hrv, if_pos (hlive now)]⟩

theorem no_ttl_no_expiry_witness :
    ∃ c1, (⟨[newCache 2], 1, 0⟩ : Cache Nat).Put "key1" 7 100 = some c1 ∧
      (∀ (ops : List (COp Nat)) (c2 : Cache Nat), (∀ op ∈ ops, op.isPutOf "key1" = false) →
        c1.run ops = some c2 → (c2.stored "key1").isSome →
        ∀ now : Int, ∃ r, c2.Get "key1" now = some r ∧ r.1 = (some 7, true)) ∧
      (∀ nows : List Int, ∃ c2, c1.run (nows.map (COp.Get "key1")) = some c2 ∧
        ∀ now : Int, ∃ r, c2.Get "key1" now = some r ∧ r.1 = (some 7, true)) :=
  no_ttl_no_expiry ⟨[newCache 2], 1, 0⟩
    (fun s hs => by
      rw [List.mem_singleton] at hs
      rw [hs]
      exact cache.consistent_newCache 2)
    "key1" 0 (by decide) rfl 7 100

/-- C7 (deletion): in a consistent cache in which `key` is routed to a shard,
`Put(key, v)` then `Del(key)` succeed, a following `Get(key)` returns
`(nil, false)` at every clock reading, and after the `Del` the key is in
neither the order sequence nor the index of its shard. -/
theorem deletion (c : Cache V) (hc : c.consistent) (key : String) (i : Nat)
    (hroute : c.getShard key = some i) (v : V) (t : Int) :
    ∃ c1 c2, c.Put key v t = some c1 ∧ c1.Del key = some c2 ∧
      (∀ now : Int, ∃ r, c2.Get key now = some r ∧ r.1 = (none, false)) ∧
      ∃ s, c2.shardOf key = some s ∧ key ∉ s.keys ∧ key ∉ s.indexKeys := by
  obtain ⟨c1, hput, hc1, hr1, _, _⟩ := Cache.Put_stored hc hroute v t
  have hroute1 : c1.getShard key = some i := by rw [hr1, hroute]
  obtain ⟨s1, hs1⟩ := Cache.getShard_shard hroute1
  have hcs1 := hc1.shard hs1
  have hc2 : (c1.setShard i (s1.del key)).consistent := hc1.setShard i (hcs1.del key)
  have hroute2 : (c1.setShard i (s1.del key)).getShard key = some i := by simpa using hroute1
  refine ⟨c1, c1.setShard i (s1.del key), hput, Cache.Del_eq hroute1 hs1, ?_, s1.del key, ?_,
    hcs1.not_mem_keys_del key⟩
  · intro now
    apply Cache.Get_of_not_stored hc2 hroute2
    rw [Cache.stored_setShard_self hroute1 hs1]
    exact cache.find_del_self hcs1 key
  · rw [Cache.shardOf_eq hroute2]
    exact Cache.shards_setShard_self hs1 _

theorem deletion_witness :
    ∃ c1 c2, (⟨[newCache 2], 1, 10⟩ : Cache Nat).Put "key2" 7 100 = some c1 ∧
      c1.Del "key2" = some c2 ∧
      (∀ now : Int, ∃ r, c2.Get "key2" now = some r ∧ r.1 = (none, false)) ∧
      ∃ s, c2.shardOf "key2" = some s ∧ "key2" ∉ s.keys ∧ "key2" ∉ s.indexKeys :=
  deletion ⟨[newCache 2], 1, 10⟩
    (fun s hs => by
      rw [List.mem_singleton] at hs
      rw [hs]
      exact cache.consistent_newCache 2)
    "key2" 0 (by decide) 7 100

/-- C8 (operations on an absent key are no-ops): when `k` is not a key of the
index of a shard (or, in a consistent shard, not a key of the order sequence,
which is the same), `del(k)` returns the shard unchanged, and `get(k)` returns
`(nil, false)` and the shard unchanged, at every clock reading. -/
theorem absent_key_noop (c : cache V) (k : String)
    (hk : k ∉ c.indexKeys ∨ (c.consistent ∧ k ∉ c.keys)) :
    c.del k = c ∧ ∀ now : Int, c.get k now = ((none, false), c) := by
  have hm : mapGet c.indexMap k = none := by
    rcases hk with hk | ⟨hc, hk⟩
    · exact mapGet_eq_none.mpr hk
    · exact hc.mapGet_none.mpr hk
  constructor
  · unfold cache.del; rw [hm]
  · intro now
    unfold cache.get; rw [hm]

theorem absent_key_noop_witness :
    ((newCache 2 : cache Nat).put "a" 1 0).del "b" = (newCache 2 : cache Nat).put "a" 1 0 ∧
    ∀ now : Int, ((newCache 2 : cache Nat).put "a" 1 0).get "b" now
      = ((none, false), (newCache 2 : cache Nat).put "a" 1 0) :=
  absent_key_noop ((newCache 2 : cache Nat).put "a" 1 0) "b" (Or.inl (by decide))

namespace cache

theorem consistent.put_length_of_mem {c : cache V} (h : c.consistent) {k : String}
    (hk : k ∈ c.keys) (v : V) (x : Int) :
    (c.put k v x).list.length = c.list.length := by
  rw [← entries_length, ← entries_length, h.put_entries_mem hk]
  rw [keys_eq_entries] at hk
  obtain ⟨p, hp, rfl⟩ := List.mem_map.mp hk
  have := (perm_cons_filter_ne (fun e : cacheEntry V => e.key) h.entries_nodup hp).length_eq
  simp only [List.length_cons] at this ⊢
  exact this.symm

end cache

/-- C9 (idempotent overwrite): in a consistent cache in which `key` is routed
to a shard, `Put(key, v1)` then `Put(key, v2)` succeed, the second `Put`
leaves the number of entries of the shard of `key` unchanged (order sequence
and index), and a following `Get(key)`, at a clock reading at which the entry
written by the second `Put` is not expired, returns `(v2, true)`. -/
theorem idempotent_overwrite (c : Cache V) (hc : c.consistent) (key : String) (i : Nat)
    (hroute : c.getShard key = some i) (v1 v2 : V) (t1 t2 : Int) :
    ∃ c1 c2 s1 s2, c.Put key v1 t1 = some c1 ∧ c1.Put key v2 t2 = some c2 ∧
      c1.shardOf key = some s1 ∧ c2.shardOf key = some s2 ∧
      s2.list.length = s1.list.length ∧ s2.indexMap.length = s1.indexMap.length ∧
      ∀ now : Int, (c.expireAt t2 = NoExpiration ∨ now < c.expireAt t2) →
        ∃ r, c2.Get key now = some r ∧ r.1 = (some v2, true) := by
  obtain ⟨c1, hput1, hc1, hr1, hexp1, hst1⟩ := Cache.Put_stored hc hroute v1 t1
  have hroute1 : c1.getShard key = some i := by rw [hr1, hroute]
  obtain ⟨s1, hs1⟩ := Cache.getShard_shard hroute1
  have hcs1 := hc1.shard hs1
  obtain ⟨c2, hput2, hc2, hr2, _, hst2⟩ := Cache.Put_stored hc1 hroute1 v2 t2
  have hroute2 : c2.getShard key = some i := by rw [hr2, hroute1]
  have hc2eq : c2 = c1.setShard i (s1.put key v2 (c1.expireAt t2)) := by
    rw [Cache.Put_eq hroute1 hs1] at hput2
    exact (Option.some.inj hput2).symm
  have hk1 : key ∈ s1.keys := by
    rw [← cache.find_isSome_iff, ← Cache.stored_eq hroute1 hs1, hst1]
    rfl
  have hlen := hcs1.put_length_of_mem hk1 v2 (c1.expireAt t2)
  have hexpeq : c1.expireAt t2 = c.expireAt t2 := by
    unfold Cache.expireAt; rw [hexp1]
  refine ⟨c1, c2, s1, s1.put key v2 (c1.expireAt t2), hput1, hput2, ?_, ?_, hlen, ?_, ?_⟩
  · rw [Cache.shardOf_eq hroute1, hs1]
  · rw [Cache.shardOf_eq hroute2, hc2eq]
    exact Cache.shards_setShard_self hs1 _
  · rw [(hcs1.put _ _ _).length_index, hcs1.length_index, hlen]
  · intro now hlive
    rw [hexpeq] at hst2
    obtain ⟨r, hr, hrv⟩ := Cache.Get_of_stored hc2 hroute2 hst2 now
    have hl : ({ key := key, value := v2, expireAt := c.expireAt t2 } : cacheEntry V).live now :=
      hlive
    exact ⟨r, hr, by rw [hrv, if_pos hl]⟩

theorem idempotent_overwrite_witness :
    ∃ c1 c2 s1 s2, (⟨[newCache 2], 1, 10⟩ : Cache Nat).Put "k" 1 100 = some c1 ∧
      c1.Put "k" 2 200 = some c2 ∧
      c1.shardOf "k" = some s1 ∧ c2.shardOf "k" = some s2 ∧
      s2.list.length = s1.list.length ∧ s2.indexMap.length = s1.indexMap.length ∧
      ∀ now : Int, ((⟨[newCache 2], 1, 10⟩ : Cache Nat).expireAt 200 = NoExpiration ∨
          now < (⟨[newCache 2], 1, 10⟩ : Cache Nat).expireAt 200) →
        ∃ r, c2.Get "k" now = some r ∧ r.1 = (some 2, true) :=
  idempotent_overwrite ⟨[newCache 2], 1, 10⟩
    (fun s hs => by
      rw [List.mem_singleton] at hs
      rw [hs]
      exact cache.consistent_newCache 2)
    "k" 0 (by decide) 1 2 100 200

/-! ## Retention of a recently used key -/

namespace cache

theorem keys_filter (es : List (cacheEntry V)) (k1 : String) :
    (es.filter (fun e => e.key ≠ k1)).map (fun e => e.key)
      = (es.map (fun e => e.key)).filter (fun a => a ≠ k1) := by
  rw [List.filter_map]
  rfl

theorem consistent.put_keys_mem {c : cache V} (h : c.consistent) {k1 : String}
    (hk : k1 ∈ c.keys) (v : V) (x : Int) :
    (c.put k1 v x).keys = k1 :: c.keys.filter (fun a => a ≠ k1) := by
  rw [keys_eq_entries, h.put_entries_mem hk, List.map_cons, keys_filter, ← keys_eq_entries]

theorem consistent.put_keys_not_mem {c : cache V} (h : c.consistent) {k1 : String}
    (hk : k1 ∉ c.keys) (v : V) (x : Int) :
    (c.put k1 v x).keys
      = k1 :: (if (c.keys.length : Int) ≥ c.capacity then c.keys.dropLast else c.keys) := by
  rw [keys_eq_entries, h.put_entries_not_mem hk, List.map_cons]
  have hl : c.keys.length = c.entries.length := by simp [keys, entries]
  rw [hl]
  split
  · rw [List.map_dropLast, ← keys_eq_entries]
  · rw [← keys_eq_entries]

theorem consistent.get_keys {c : cache V} (h : c.consistent) (k1 : String) (now : Int) :
    (c.get k1 now).2.keys
      = if (c.get k1 now).1.2 = true then k1 :: c.keys.filter (fun a => a ≠ k1)
        else c.keys.filter (fun a => a ≠ k1) := by
  by_cases hk : k1 ∈ c.keys
  · obtain ⟨e, he, rfl⟩ := mem_keys.mp hk
    by_cases hlive : e.Value.expireAt = NoExpiration ∨ now < e.Value.expireAt
    · rw [(h.get_live he hlive).1, if_pos rfl, keys_eq_entries, (h.get_live he hlive).2,
        List.map_cons, keys_filter, ← keys_eq_entries]
    · rw [(h.get_expired he hlive).1, if_neg (by simp), keys_eq_entries,
        (h.get_expired he hlive).2, keys_filter, ← keys_eq_entries]
  · rw [h.get_not_mem hk, if_neg (by simp), filter_ne_eq_self (fun a : String => a) (by simpa using hk)]

theorem consistent.del_keys {c : cache V} (h : c.consistent) (k1 : String) :
    (c.del k1).keys = c.keys.filter (fun a => a ≠ k1) := by
  rw [keys_eq_entries, h.del_entries, keys_filter, ← keys_eq_entries]

theorem find_same {c c1 : cache V} {k : String}
    (hf : c1.find k = c.find k ∨ c1.find k = none) (hk : k ∈ c1.keys) :
    c1.find k = c.find k := by
  rcases hf with hf | hf
  · exact hf
  · have := find_isSome_iff.mpr hk
    rw [hf] at this
    cases this

theorem filter_split (front back : List String) {k k1 : String} (hne : k1 ≠ k) :
    (front ++ k :: back).filter (fun a => a ≠ k1)
      = front.filter (fun a => a ≠ k1) ++ k :: back.filter (fun a => a ≠ k1) := by
  rw [List.filter_append, List.filter_cons_of_pos (by simpa using Ne.symm hne)]

theorem mem_of_mem_filter_front {front : List String} {W : Finset String}
    (hfront : ∀ a ∈ front, a ∈ W) (k1 : String) :
    ∀ a ∈ front.filter (fun a => a ≠ k1), a ∈ W :=
  fun a ha => hfront a (List.mem_of_mem_filter ha)

/-- One call keeps a recently used key in the shard: the keys in front of `k`
stay among the keys `W` used since, of which there are fewer than the
capacity. -/
theorem consistent.retention_step {c : cache V} (h : c.consistent) {k : String}
    {W : Finset String} {C : Nat} (hW : W.card < C) (hcap : c.capacity = C)
    {v : V} {front back : List String} (hkeys : c.keys = front ++ k :: back)
    (hfind : c.find k = some { key := k, value := v, expireAt := NoExpiration })
    (hfront : ∀ a ∈ front, a ∈ W) (op : Op V)
    (hop : op ≠ Op.del k ∧ ∀ v1 x, op = Op.put k v1 x → x = NoExpiration)
    (hused : c.uses op = true → op.key ≠ k → op.key ∈ W) :
    ∃ front1 back1, (c.step op).keys = front1 ++ k :: back1 ∧ (∀ a ∈ front1, a ∈ W) ∧
      (c.step op).find k
        = some { key := k, value := lastPut k v [op], expireAt := NoExpiration } := by
  have hkmem : k ∈ c.keys := by rw [hkeys]; simp
  cases op with
  | put k1 v1 x =>
    by_cases hk1 : k1 = k
    · subst hk1
      have hx : x = NoExpiration := hop.2 v1 x rfl
      subst hx
      refine ⟨[], c.keys.filter (fun a => a ≠ k1), ?_, by simp, ?_⟩
      · simp only [cache.step, List.nil_append]
        exact h.put_keys_mem hkmem v1 _
      · simp only [cache.step, lastPut, if_true]
        exact find_put_self h _ _ _
    · have hlp : lastPut k v [Op.put k1 v1 x] = v := by simp [lastPut, hk1]
      have hk1W : k1 ∈ W := hused rfl hk1
      rw [hlp, ← hfind]
      simp only [cache.step]
      by_cases hmem : k1 ∈ c.keys
      · have hk := h.put_keys_mem hmem v1 x
        rw [hkeys, filter_split front back hk1] at hk
        refine ⟨k1 :: front.filter (fun a => a ≠ k1), back.filter (fun a => a ≠ k1), hk, ?_, ?_⟩
        · intro a ha
          rcases List.mem_cons.mp ha with rfl | ha
          · exact hk1W
          · exact mem_of_mem_filter_front hfront k1 a ha
        · exact find_same (find_put_ne h hk1 v1 x) (by rw [hk]; simp)
      · have hk := h.put_keys_not_mem hmem v1 x
        by_cases hfull : (c.keys.length : Int) ≥ c.capacity
        · rw [if_pos hfull] at hk
          have hback : back ≠ [] := by
            rintro rfl
            have hnd : (k1 :: front).Nodup := by
              rw [List.nodup_cons]
              refine ⟨fun hm => hmem (by rw [hkeys]; simp [hm]), ?_⟩
              have := h.key_nodup
              rw [hkeys] at this
              exact this.of_append_left
            have hsub : (k1 :: front).toFinset ⊆ W := by
              intro a ha
              rw [List.mem_toFinset] at ha
              rcases List.mem_cons.mp ha with rfl | ha
              · exact hk1W
              · exact hfront a ha
            have hcard := Finset.card_le_card hsub
            rw [List.toFinset_card_of_nodup hnd] at hcard
            rw [hkeys, hcap] at hfull
            simp only [List.length_append, List.length_cons, List.length_nil] at hfull hcard
            omega
          rw [hkeys, List.dropLast_append_of_ne_nil _ (by simp),
            List.dropLast_cons_of_ne_nil hback] at hk
          refine ⟨k1 :: front, back.dropLast, hk, ?_, ?_⟩
          · intro a ha
            rcases List.mem_cons.mp ha with rfl | ha
            · exact hk1W
            · exact hfront a ha
          · exact find_same (find_put_ne h hk1 v1 x) (by rw [hk]; simp)
        · rw [if_neg hfull, hkeys] at hk
          refine ⟨k1 :: front, back, hk, ?_, ?_⟩
          · intro a ha
            rcases List.mem_cons.mp ha with rfl | ha
            · exact hk1W
            · exact hfront a ha
          · exact find_same (find_put_ne h hk1 v1 x) (by rw [hk]; simp)
  | get k1 now =>
    have hlp : lastPut k v [Op.get k1 now] = v := rfl
    rw [hlp]
    simp only [cache.step]
    by_cases hk1 : k1 = k
    · subst hk1
      have hlive : ({ key := k1, value := v, expireAt := NoExpiration } : cacheEntry V).live now :=
        Or.inl rfl
      have hres : (c.get k1 now).1 = (some v, true) := by
        have := h.get_fst k1 now
        rw [hfind] at this
        simp only [hlive, if_true] at this
        exact this
      have hk := h.get_keys k1 now
      rw [hres, if_pos rfl] at hk
      exact ⟨[], c.keys.filter (fun a => a ≠ k1), by simpa using hk, by simp,
        find_get_live h hfind hlive⟩
    · have hk := h.get_keys k1 now
      rw [hkeys, filter_split front back hk1] at hk
      rw [← hfind]
      by_cases hres : (c.get k1 now).1.2 = true
      · rw [if_pos hres] at hk
        have hk1W : k1 ∈ W := hused hres hk1
        refine ⟨k1 :: front.filter (fun a => a ≠ k1), back.filter (fun a => a ≠ k1), hk, ?_, ?_⟩
        · intro a ha
          rcases List.mem_cons.mp ha with rfl | ha
          · exact hk1W
          · exact mem_of_mem_filter_front hfront k1 a ha
        · exact find_same (find_get h k k1 now) (by rw [hk]; simp)
      · rw [if_neg hres] at hk
        exact ⟨front.filter (fun a => a ≠ k1), back.filter (fun a => a ≠ k1), hk,
          mem_of_mem_filter_front hfront k1,
          find_same (find_get h k k1 now) (by rw [hk]; simp)⟩
  | del k1 =>
    have hk1 : k1 ≠ k := fun hh => hop.1 (by rw [hh])
    have hlp : lastPut k v [Op.del k1] = v := rfl
    rw [hlp, ← hfind]
    simp only [cache.step]
    have hk := h.del_keys k1
    rw [hkeys, filter_split front back hk1] at hk
    exact ⟨front.filter (fun a => a ≠ k1), back.filter (fun a => a ≠ k1), hk,
      mem_of_mem_filter_front hfront k1, find_same (find_del h k k1) (by rw [hk]; simp)⟩

theorem lastPut_cons (k : String) (v : V) (op : Op V) (ops : List (Op V)) :
    lastPut k v (op :: ops) = lastPut k (lastPut k v [op]) ops := by
  cases op with
  | put k1 v1 x =>
    by_cases hk : k1 = k <;> simp [lastPut, hk]
  | get k1 now => rfl
  | del k1 => rfl

theorem consistent.retention_run {k : String} {W : Finset String} {C : Nat}
    (hW : W.card < C) (ops : List (Op V)) :
    ∀ (c : cache V) (v : V) (front back : List String), c.consistent → c.capacity = C →
      c.keys = front ++ k :: back →
      c.find k = some { key := k, value := v, expireAt := NoExpiration } →
      (∀ a ∈ front, a ∈ W) →
      (∀ a ∈ c.usedKeys ops, a ≠ k → a ∈ W) →
      (∀ op ∈ ops, op ≠ Op.del k ∧ ∀ v1 x, op = Op.put k v1 x → x = NoExpiration) →
      (c.run ops).find k
        = some { key := k, value := lastPut k v ops, expireAt := NoExpiration } := by
  induction ops with
  | nil =>
    intro c v front back _ _ _ hfind _ _ _
    exact hfind
  | cons op t ih =>
    intro c v front back h hcap hkeys hfind hfront hused hops
    have hu : c.uses op = true → op.key ≠ k → op.key ∈ W := by
      intro hu hne
      apply hused _ _ hne
      simp [cache.usedKeys, hu]
    obtain ⟨front1, back1, hk1, hf1, hfind1⟩ :=
      h.retention_step hW hcap hkeys hfind hfront op (hops op (List.mem_cons_self _ _)) hu
    rw [run_cons, lastPut_cons]
    refine ih (c.step op) _ front1 back1 (h.step op) (by simpa using hcap) hk1 hfind1 hf1 ?_
      (fun o ho => hops o (List.mem_cons_of_mem _ ho))
    intro a ha hne
    apply hused a _ hne
    simp only [cache.usedKeys, List.mem_append]
    exact Or.inr ha

end cache

/-- C10, as amended (retention guarantee): in a consistent shard of capacity
`C`, let `k` be put with value `v` and no expiry, or read successfully from a
non-expiring entry with value `v`.  If the calls that follow do not delete
`k`, put `k` only without expiry, and use (put, or read successfully) fewer
than `C` distinct keys other than `k`, then `get(k)` returns the value of the
last put of `k` with found = true, at every clock reading. -/
theorem retention (c0 : cache V) (hc : c0.consistent) (C : Nat) (hcap : c0.capacity = C)
    (k : String) (v : V) (first : Op V)
    (hfirst : first = Op.put k v NoExpiration ∨
      ((∃ now, first = Op.get k now) ∧
        c0.find k = some { key := k, value := v, expireAt := NoExpiration }))
    (ops : List (Op V)) (hops : ∀ op ∈ ops, op.retains k = true)
    (hfew : (((c0.step first).usedKeys ops).filter (fun a => a ≠ k)).dedup.length < C) :
    ∀ now : Int, (((c0.step first).run ops).get k now).1 = (some (lastPut k v ops), true) := by
  have hc1 : (c0.step first).consistent := hc.step first
  have hstart : ∃ back, (c0.step first).keys = [] ++ k :: back ∧
      (c0.step first).find k = some { key := k, value := v, expireAt := NoExpiration } := by
    rcases hfirst with rfl | ⟨⟨now, rfl⟩, hfind⟩
    · simp only [cache.step, List.nil_append]
      by_cases hk : k ∈ c0.keys
      · exact ⟨_, hc.put_keys_mem hk _ _, cache.find_put_self hc _ _ _⟩
      · exact ⟨_, hc.put_keys_not_mem hk _ _, cache.find_put_self hc _ _ _⟩
    · have hlive : ({ key := k, value := v, expireAt := NoExpiration } : cacheEntry V).live now :=
        Or.inl rfl
      have hres : (c0.get k now).1 = (some v, true) := by
        have := hc.get_fst k now
        rw [hfind] at this
        simp only [hlive, if_true] at this
        exact this
      have hk := hc.get_keys k now
      rw [hres, if_pos rfl] at hk
      exact ⟨_, by simpa [cache.step] using hk, cache.find_get_live hc hfind hlive⟩
  obtain ⟨back, hkeys, hfind⟩ := hstart
  have hW : (((c0.step first).usedKeys ops).filter (fun a => a ≠ k)).toFinset.card < C := by
    rw [List.card_toFinset]; exact hfew
  have hops2 : ∀ op ∈ ops, op ≠ Op.del k ∧ ∀ v1 x, op = Op.put k v1 x → x = NoExpiration := by
    intro op hop
    have hr := hops op hop
    constructor
    · rintro rfl
      simp [Op.retains] at hr
    · rintro v1 x rfl
      simpa [Op.retains] using hr
  have hfinal := cache.consistent.retention_run hW ops (c0.step first) v [] back hc1
    (by simpa using hcap) hkeys hfind (by simp)
    (by
      intro a ha hne
      rw [List.mem_toFinset, List.mem_filter]
      exact ⟨ha, by simpa using hne⟩)
    hops2
  intro now
  have hg := (hc1.run ops).get_fst k now
  rw [hfinal] at hg
  have hlive : ({ key := k, value := lastPut k v ops, expireAt := NoExpiration }
      : cacheEntry V).live now := Or.inl rfl
  simp only [hlive, if_true] at hg
  exact hg

theorem retention_witness :
    ((((newCache 2 : cache Nat).step (Op.put "k" 7 NoExpiration)).run
        [Op.put "a" 1 0, Op.get "a" 5, Op.del "a", Op.get "k" 3, Op.put "k" 8 0,
          Op.put "a" 2 9]).get "k" 11).1
      = (some (lastPut "k" 7
          [Op.put "a" 1 0, Op.get "a" 5, Op.del "a", Op.get "k" 3, Op.put "k" 8 0,
            Op.put "a" 2 9]), true) :=
  retention (newCache 2) (cache.consistent_newCache 2) 2 rfl "k" 7 (Op.put "k" 7 NoExpiration)
    (Or.inl rfl) _ (by decide) (by decide) 11

/-- C10 as stated fails: reads of other keys refresh them.  In a shard of
capacity 3 holding `x` and `y`, after `put(k)` the calls `get(x)`, `get(y)`,
`put(z)` put one key other than `k` and do not delete `k`, yet `put(z)` evicts
`k`. -/
theorem retention_counterexample :
    ((putKeys ([Op.get "x" 1, Op.get "y" 2, Op.put "z" 9 0] : List (Op Nat))).filter
        (fun a => a ≠ "k")).dedup.length < 3 ∧
    (∀ op ∈ ([Op.get "x" 1, Op.get "y" 2, Op.put "z" 9 0] : List (Op Nat)), op ≠ Op.del "k") ∧
    ((((((newCache 3 : cache Nat).run [Op.put "x" 1 0, Op.put "y" 2 0]).put "k" 7 0).run
        [Op.get "x" 1, Op.get "y" 2, Op.put "z" 9 0]).get "k" 3).1 = (none, false)) := by
  refine ⟨by decide, by decide, by decide⟩

/-! ## The index and the order sequence agree -/

/-- C14 (index/order consistency invariant): in a shard created by `newCache`
with any capacity, after every prefix of every sequence of put/get/del calls,
the keys of the order sequence are pairwise distinct, so are the keys of the
index, the order sequence and the index have the same length, every key of the
index maps to the address of an element of the order sequence that carries
that key, and every element of the order sequence is what the index holds for
its key. -/
theorem index_order_consistency (cap : Int) (ops : List (Op V)) (n : Nat) :
    ((newCache cap : cache V).run (ops.take n)).keys.Nodup ∧
    ((newCache cap : cache V).run (ops.take n)).indexKeys.Nodup ∧
    ((newCache cap : cache V).run (ops.take n)).list.length
      = ((newCache cap : cache V).run (ops.take n)).indexMap.length ∧
    (∀ (k : String) (a : Nat),
      mapGet ((newCache cap : cache V).run (ops.take n)).indexMap k = some a →
      ∃ e ∈ ((newCache cap : cache V).run (ops.take n)).list,
        deref ((newCache cap : cache V).run (ops.take n)).list a = some e ∧
        e.Value.key = k) ∧
    (∀ e ∈ ((newCache cap : cache V).run (ops.take n)).list,
      mapGet ((newCache cap : cache V).run (ops.take n)).indexMap e.Value.key = some e.addr) := by
  have h : ((newCache cap : cache V).run (ops.take n)).consistent :=
    (cache.consistent_newCache cap).run _
  refine ⟨h.key_nodup, h.indexKeys_perm.nodup_iff.mpr h.key_nodup, h.length_index.symm, ?_, ?_⟩
  · intro k a hm
    obtain ⟨e, he, hk, ha⟩ := h.mapGet_some.mp hm
    refine ⟨e, he, ?_, hk⟩
    rw [← ha]
    exact h.deref he
  · intro e he
    exact h.mapGet_some.mpr ⟨e, he, rfl, rfl⟩

theorem index_order_consistency_witness :
    ((newCache 2 : cache Nat).run
      ([Op.put "a" 1 0, Op.put "b" 2 5, Op.get "b" 7, Op.put "c" 3 0, Op.del "a"].take 4)).keys.Nodup ∧
    ((newCache 2 : cache Nat).run
      ([Op.put "a" 1 0, Op.put "b" 2 5, Op.get "b" 7, Op.put "c" 3 0, Op.del "a"].take 4)).list.length
      = ((newCache 2 : cache Nat).run
      ([Op.put "a" 1 0, Op.put "b" 2 5, Op.get "b" 7, Op.put "c" 3 0, Op.del "a"].take 4)).indexMap.length :=
  ⟨(index_order_consistency 2 _ 4).1, (index_order_consistency 2 _ 4).2.2.1⟩

/-! ## Postconditions of put and get -/

namespace cache

theorem mem_dropLast_or_last {α : Type} {l : List α} {p : α} (hp : p ∈ l) :
    p ∈ l.dropLast ∨ l.getLast? = some p := by
  have hne : l ≠ [] := List.ne_nil_of_mem hp
  have hsplit := List.dropLast_append_getLast hne
  rw [← hsplit, List.mem_append, List.mem_singleton] at hp
  rcases hp with hp | hp
  · exact Or.inl hp
  · right
    rw [List.getLast?_eq_getLast _ hne, hp]

theorem consistent.put_indexMap_mem {c : cache V} (h : c.consistent) {k : String}
    (hk : k ∈ c.keys) (v : V) (x : Int) : (c.put k v x).indexMap = c.indexMap := by
  obtain ⟨e, he, hek⟩ := mem_keys.mp hk
  have hm : mapGet c.indexMap k = some e.addr := h.mapGet_some.mpr ⟨e, he, hek, rfl⟩
  unfold cache.put
  rw [hm]

theorem consistent.length_filter_key {c : cache V} (h : c.consistent) {p : cacheEntry V}
    (hp : p ∈ c.entries) :
    (c.entries.filter (fun e => e.key ≠ p.key)).length + 1 = c.entries.length := by
  have := (perm_cons_filter_ne (fun e : cacheEntry V => e.key) h.entries_nodup hp).length_eq
  simp only [List.length_cons] at this
  exact this.symm

theorem consistent.not_mem_keys_dropLast {c : cache V} (h : c.consistent) {p : cacheEntry V}
    (hlast : c.entries.getLast? = some p) :
    p.key ∉ c.entries.dropLast.map (fun e => e.key) := by
  have hne : c.entries ≠ [] := by
    intro hnil
    rw [hnil] at hlast
    cases hlast
  have hsplit := List.dropLast_append_getLast hne
  rw [List.getLast?_eq_getLast _ hne] at hlast
  rw [Option.some.inj hlast] at hsplit
  have hn := h.entries_nodup
  rw [← hsplit, List.map_append, List.nodup_append] at hn
  intro hm
  exact hn.2.2 hm (by simp)

end cache

/-- C15 (postcondition of put on a new key): in a consistent shard with
entries `L` (front first), for a key `k` that is not present, `put(k, v, e)`
yields the entries `(k, v, e) :: L` when `len(L) < capacity` and
`(k, v, e) :: (L without its last element)` when `len(L) >= capacity`; an
entry of `L` that is no longer stored is the last element of `L`, and its key
is no longer a key of the index; the new key is in the index, and the shard
stays consistent. -/
theorem put_new_key (c : cache V) (hc : c.consistent) (k : String) (hk : k ∉ c.keys)
    (v : V) (x : Int) :
    ((c.entries.length : Int) < c.capacity →
      (c.put k v x).entries = { key := k, value := v, expireAt := x } :: c.entries) ∧
    ((c.entries.length : Int) ≥ c.capacity →
      (c.put k v x).entries = { key := k, value := v, expireAt := x } :: c.entries.dropLast) ∧
    (∀ p ∈ c.entries, p ∉ (c.put k v x).entries →
      c.entries.getLast? = some p ∧ p.key ∉ (c.put k v x).indexKeys) ∧
    k ∈ (c.put k v x).indexKeys ∧
    (c.put k v x).consistent := by
  have he := hc.put_entries_not_mem hk v x
  have hc2 := hc.put k v x
  refine ⟨?_, ?_, ?_, ?_, hc2⟩
  · intro hlt
    rw [he, if_neg (by omega)]
  · intro hge
    rw [he, if_pos hge]
  · intro p hp hgone
    have hlast : c.entries.getLast? = some p := by
      rcases cache.mem_dropLast_or_last hp with hd | hl
      · exfalso
        apply hgone
        rw [he]
        refine List.mem_cons_of_mem _ ?_
        split
        · exact hd
        · exact hp
      · exact hl
    refine ⟨hlast, ?_⟩
    intro hidx
    have hkeys := hc2.indexKeys_perm.mem_iff.mp hidx
    by_cases hge : (c.entries.length : Int) ≥ c.capacity
    · rw [cache.keys_eq_entries, he, if_pos hge, List.map_cons, List.mem_cons] at hkeys
      rcases hkeys with hpk | hmem
      · apply hk
        have hpk2 : p.key = k := hpk
        rw [cache.keys_eq_entries, ← hpk2]
        exact List.mem_map_of_mem (fun e : cacheEntry V => e.key) hp
      · exact hc.not_mem_keys_dropLast hlast hmem
    · apply hgone
      rw [he, if_neg hge]
      exact List.mem_cons_of_mem _ hp
  · apply hc2.indexKeys_perm.mem_iff.mpr
    rw [cache.keys_eq_entries, he, List.map_cons]
    exact List.mem_cons_self _ _

theorem put_new_key_witness :
    (((newCache 1 : cache Nat).put "a" 1 0).put "b" 2 5).entries
      = { key := "b", value := 2, expireAt := 5 }
        :: ((newCache 1 : cache Nat).put "a" 1 0).entries.dropLast ∧
    (((newCache 1 : cache Nat).put "a" 1 0).entries.getLast? = some ⟨"a", 1, 0⟩ ∧
      (⟨"a", 1, 0⟩ : cacheEntry Nat).key
        ∉ (((newCache 1 : cache Nat).put "a" 1 0).put "b" 2 5).indexKeys) ∧
    "b" ∈ (((newCache 1 : cache Nat).put "a" 1 0).put "b" 2 5).indexKeys :=
  ⟨(put_new_key ((newCache 1 : cache Nat).put "a" 1 0)
      ((cache.consistent_newCache 1).put "a" 1 0) "b" (by decide) 2 5).2.1 (by decide),
    (put_new_key ((newCache 1 : cache Nat).put "a" 1 0)
      ((cache.consistent_newCache 1).put "a" 1 0) "b" (by decide) 2 5).2.2.1
      ⟨"a", 1, 0⟩ (by decide) (by decide),
    (put_new_key ((newCache 1 : cache Nat).put "a" 1 0)
      ((cache.consistent_newCache 1).put "a" 1 0) "b" (by decide) 2 5).2.2.2.1⟩

/-- C16 (put on an existing key never evicts): in a consistent shard, for a
key `k` that is present (whatever the size of the shard and the expiry of the
stored entry), `put(k, v, e)` yields the entry `(k, v, e)` followed by the
other entries, unchanged and in their former order; no key is removed, the
index is unchanged, and so are the number of entries and the capacity. -/
theorem put_existing_key (c : cache V) (hc : c.consistent) (k : String) (hk : k ∈ c.keys)
    (v : V) (x : Int) :
    (c.put k v x).entries
      = { key := k, value := v, expireAt := x } :: c.entries.filter (fun e => e.key ≠ k) ∧
    (∀ k1, k1 ∈ (c.put k v x).keys ↔ k1 ∈ c.keys) ∧
    (c.put k v x).indexMap = c.indexMap ∧
    (c.put k v x).list.length = c.list.length ∧
    (c.put k v x).capacity = c.capacity := by
  have he := hc.put_entries_mem hk v x
  refine ⟨he, ?_, hc.put_indexMap_mem hk v x, hc.put_length_of_mem hk v x,
    cache.put_capacity c k v x⟩
  intro k1
  rw [hc.put_keys_mem hk v x, List.mem_cons, List.mem_filter]
  constructor
  · rintro (rfl | ⟨h1, _⟩)
    · exact hk
    · exact h1
  · intro h1
    by_cases hkk : k1 = k
    · exact Or.inl hkk
    · exact Or.inr ⟨h1, by simpa using hkk⟩

theorem put_existing_key_witness :
    ((((newCache 2 : cache Nat).put "a" 1 3).put "b" 2 0).put "a" 9 0).entries
      = { key := "a", value := 9, expireAt := 0 }
        :: (((newCache 2 : cache Nat).put "a" 1 3).put "b" 2 0).entries.filter
            (fun e => e.key ≠ "a") ∧
    (∀ k1, k1 ∈ ((((newCache 2 : cache Nat).put "a" 1 3).put "b" 2 0).put "a" 9 0).keys ↔
      k1 ∈ (((newCache 2 : cache Nat).put "a" 1 3).put "b" 2 0).keys) ∧
    ((((newCache 2 : cache Nat).put "a" 1 3).put "b" 2 0).put "a" 9 0).indexMap
      = (((newCache 2 : cache Nat).put "a" 1 3).put "b" 2 0).indexMap ∧
    ((((newCache 2 : cache Nat).put "a" 1 3).put "b" 2 0).put "a" 9 0).list.length
      = (((newCache 2 : cache Nat).put "a" 1 3).put "b" 2 0).list.length ∧
    ((((newCache 2 : cache Nat).put "a" 1 3).put "b" 2 0).put "a" 9 0).capacity
      = (((newCache 2 : cache Nat).put "a" 1 3).put "b" 2 0).capacity :=
  put_existing_key (((newCache 2 : cache Nat).put "a" 1 3).put "b" 2 0)
    (((cache.consistent_newCache 2).put "a" 1 3).put "b" 2 0) "a" (by decide) 9 0

namespace cache

theorem consistent.get_indexMap_live {c : cache V} (h : c.consistent) {e : Element V}
    (he : e ∈ c.list) {now : Int}
    (hl : e.Value.expireAt = NoExpiration ∨ now < e.Value.expireAt) :
    (c.get e.Value.key now).2.indexMap = c.indexMap := by
  rw [h.get_mem he, if_pos hl]

theorem consistent.not_mem_keys_get_expired {c : cache V} (h : c.consistent) {e : Element V}
    (he : e ∈ c.list) {now : Int}
    (hl : ¬ (e.Value.expireAt = NoExpiration ∨ now < e.Value.expireAt)) :
    e.Value.key ∉ (c.get e.Value.key now).2.keys ∧
    e.Value.key ∉ (c.get e.Value.key now).2.indexKeys := by
  have h1 : e.Value.key ∉ (c.get e.Value.key now).2.keys := by
    rw [keys_eq_entries, (h.get_expired he hl).2]
    exact not_mem_map_filter_ne (fun y : cacheEntry V => y.key) _ _
  exact ⟨h1, fun hm => h1 ((h.get _ _).indexKeys_perm.mem_iff.mp hm)⟩

end cache

/-- C17 (lazy deletion on read): in a consistent shard holding an entry `p`,
(a) when `p.expireAt` is not the no-expiration sentinel and `now >= p.expireAt`,
`get(p.key)` returns `(nil, false)` and leaves the other entries, unchanged and
in their former order; the key is in neither the order sequence nor the index,
and both have exactly one entry less; (b) when `p` is not expired at `now`,
`get(p.key)` returns `(p.value, true)` and leaves `p` itself followed by the
other entries, unchanged and in their former order, with the same index, the
same number of entries and the same capacity. -/
theorem lazy_deletion (c : cache V) (hc : c.consistent) (p : cacheEntry V)
    (hp : p ∈ c.entries) (now : Int) :
    (p.expireAt ≠ NoExpiration → p.expireAt ≤ now →
      (c.get p.key now).1 = (none, false) ∧
      (c.get p.key now).2.entries = c.entries.filter (fun e => e.key ≠ p.key) ∧
      p.key ∉ (c.get p.key now).2.keys ∧
      p.key ∉ (c.get p.key now).2.indexKeys ∧
      (c.get p.key now).2.list.length + 1 = c.list.length ∧
      (c.get p.key now).2.indexMap.length + 1 = c.indexMap.length) ∧
    (p.live now →
      (c.get p.key now).1 = (some p.value, true) ∧
      (c.get p.key now).2.entries = p :: c.entries.filter (fun e => e.key ≠ p.key) ∧
      (c.get p.key now).2.indexMap = c.indexMap ∧
      (c.get p.key now).2.list.length = c.list.length ∧
      (c.get p.key now).2.capacity = c.capacity) := by
  obtain ⟨e, he, rfl⟩ := cache.mem_entries.mp hp
  have hlen := hc.length_filter_key hp
  constructor
  · intro hne hle
    have hdead : ¬ (e.Value.expireAt = NoExpiration ∨ now < e.Value.expireAt) := by
      simp only [not_or, not_lt]
      exact ⟨hne, hle⟩
    have hg := hc.get_expired he hdead
    have hk := hc.not_mem_keys_get_expired he hdead
    have hl : (c.get e.Value.key now).2.list.length + 1 = c.list.length := by
      rw [← cache.entries_length, ← cache.entries_length, hg.2]
      exact hlen
    refine ⟨hg.1, hg.2, hk.1, hk.2, hl, ?_⟩
    rw [(hc.get _ _).length_index, hc.length_index]
    exact hl
  · intro hlive
    have hg := hc.get_live he hlive
    refine ⟨hg.1, hg.2, hc.get_indexMap_live he hlive, ?_, cache.get_capacity c _ now⟩
    rw [← cache.entries_length, ← cache.entries_length, hg.2, List.length_cons]
    exact hlen

theorem lazy_deletion_witness :
    (((((newCache 2 : cache Nat).put "a" 1 5).put "b" 2 0).get "a" 7).1 = (none, false) ∧
      ((((newCache 2 : cache Nat).put "a" 1 5).put "b" 2 0).get "a" 7).2.entries
        = (((newCache 2 : cache Nat).put "a" 1 5).put "b" 2 0).entries.filter
            (fun e => e.key ≠ "a") ∧
      "a" ∉ ((((newCache 2 : cache Nat).put "a" 1 5).put "b" 2 0).get "a" 7).2.keys ∧
      "a" ∉ ((((newCache 2 : cache Nat).put "a" 1 5).put "b" 2 0).get "a" 7).2.indexKeys ∧
      ((((newCache 2 : cache Nat).put "a" 1 5).put "b" 2 0).get "a" 7).2.list.length + 1
        = (((newCache 2 : cache Nat).put "a" 1 5).put "b" 2 0).list.length ∧
      ((((newCache 2 : cache Nat).put "a" 1 5).put "b" 2 0).get "a" 7).2.indexMap.length + 1
        = (((newCache 2 : cache Nat).put "a" 1 5).put "b" 2 0).indexMap.length) ∧
    (((((newCache 2 : cache Nat).put "a" 1 5).put "b" 2 0).get "a" 3).1 = (some 1, true) ∧
      ((((newCache 2 : cache Nat).put "a" 1 5).put "b" 2 0).get "a" 3).2.entries
        = ⟨"a", 1, 5⟩ :: (((newCache 2 : cache Nat).put "a" 1 5).put "b" 2 0).entries.filter
            (fun e => e.key ≠ "a") ∧
      ((((newCache 2 : cache Nat).put "a" 1 5).put "b" 2 0).get "a" 3).2.indexMap
        = (((newCache 2 : cache Nat).put "a" 1 5).put "b" 2 0).indexMap ∧
      ((((newCache 2 : cache Nat).put "a" 1 5).put "b" 2 0).get "a" 3).2.list.length
        = (((newCache 2 : cache Nat).put "a" 1 5).put "b" 2 0).list.length ∧
      ((((newCache 2 : cache Nat).put "a" 1 5).put "b" 2 0).get "a" 3).2.capacity
        = (((newCache 2 : cache Nat).put "a" 1 5).put "b" 2 0).capacity) :=
  ⟨(lazy_deletion (((newCache 2 : cache Nat).put "a" 1 5).put "b" 2 0)
      (((cache.consistent_newCache 2).put "a" 1 5).put "b" 2 0) ⟨"a", 1, 5⟩ (by decide) 7).1
      (by decide) (by decide),
    (lazy_deletion (((newCache 2 : cache Nat).put "a" 1 5).put "b" 2 0)
      (((cache.consistent_newCache 2).put "a" 1 5).put "b" 2 0) ⟨"a", 1, 5⟩ (by decide) 3).2
      (by decide)⟩

namespace cache

theorem mem_filter_key {es : List (cacheEntry V)} {p : cacheEntry V} {k1 : String}
    (hp : p ∈ es) (hne : k1 ≠ p.key) : p ∈ es.filter (fun e => e.key ≠ k1) := by
  rw [List.mem_filter]
  exact ⟨hp, by simpa using Ne.symm hne⟩

/-- An entry that is not the last one of the order sequence survives every
call on another key. -/
theorem consistent.mem_step_of_not_last {c : cache V} (h : c.consistent) {p : cacheEntry V}
    (hp : p ∈ c.entries) (hlast : c.entries.getLast? ≠ some p) (op : Op V)
    (hop : op.key ≠ p.key) : p ∈ (c.step op).entries := by
  cases op with
  | put k1 v1 x1 =>
    simp only [Op.key] at hop
    simp only [cache.step]
    by_cases hk : k1 ∈ c.keys
    · rw [h.put_entries_mem hk]
      exact List.mem_cons_of_mem _ (mem_filter_key hp hop)
    · rw [h.put_entries_not_mem hk]
      refine List.mem_cons_of_mem _ ?_
      split
      · rcases mem_dropLast_or_last hp with hd | hl
        · exact hd
        · exact absurd hl hlast
      · exact hp
  | get k1 now =>
    simp only [Op.key] at hop
    simp only [cache.step]
    by_cases hk : k1 ∈ c.keys
    · obtain ⟨e, he, rfl⟩ := mem_keys.mp hk
      by_cases hlive : e.Value.expireAt = NoExpiration ∨ now < e.Value.expireAt
      · rw [(h.get_live he hlive).2]
        exact List.mem_cons_of_mem _ (mem_filter_key hp hop)
      · rw [(h.get_expired he hlive).2]
        exact mem_filter_key hp hop
    · rw [h.get_not_mem hk]
      exact hp
  | del k1 =>
    simp only [Op.key] at hop
    simp only [cache.step]
    rw [h.del_entries]
    exact mem_filter_key hp hop

end cache

/-- C19 (expired entries still occupy capacity): `put` takes no clock reading,
and on a new key the keys it leaves depend only on the keys and the capacity
of the shard, not on any expiry.  In a consistent full shard whose last entry
is `last`, with an entry `p` before the last one, whatever the expiry of `p`
and of `last` (in particular when `p` is expired and `last` is not), a put of
a new key leaves the new entry followed by all entries but `last`: `last` is
evicted, `p` is still stored and the shard holds as many entries as before.
Afterwards, in any consistent shard, `p`
stays stored across every call on another key as long as `p` is not the last
entry. -/
theorem expired_entries_occupy_capacity (c : cache V) (hc : c.consistent) (k : String)
    (hk : k ∉ c.keys) (v : V) (x : Int) (hfull : (c.entries.length : Int) ≥ c.capacity)
    (p last : cacheEntry V) (hp : p ∈ c.entries.dropLast)
    (hlast : c.entries.getLast? = some last) :
    (c.put k v x).entries = { key := k, value := v, expireAt := x } :: c.entries.dropLast ∧
    last.key ∉ (c.put k v x).keys ∧
    p ∈ (c.put k v x).entries ∧
    (c.put k v x).entries.length = c.entries.length ∧
    (∀ c2 : cache V, c2.consistent → c2.keys = c.keys → c2.capacity = c.capacity →
      (c2.put k v x).keys = (c.put k v x).keys) ∧
    (∀ c1 : cache V, c1.consistent → p ∈ c1.entries → c1.entries.getLast? ≠ some p →
      ∀ op : Op V, op.key ≠ p.key → p ∈ (c1.step op).entries) := by
  have he := hc.put_entries_not_mem hk v x
  rw [if_pos hfull] at he
  refine ⟨he, ?_, ?_, ?_, ?_, ?_⟩
  · rw [cache.keys_eq_entries, he, List.map_cons, List.mem_cons]
    rintro (h | h)
    · apply hk
      have h2 : last.key = k := h
      rw [cache.keys_eq_entries, ← h2]
      exact List.mem_map_of_mem (fun e : cacheEntry V => e.key)
        (List.mem_of_getLast?_eq_some hlast)
    · exact hc.not_mem_keys_dropLast hlast h
  · rw [he]
    exact List.mem_cons_of_mem _ hp
  · have hpos : 0 < c.entries.length :=
      List.length_pos_of_mem (List.mem_of_getLast?_eq_some hlast)
    rw [he, List.length_cons, List.length_dropLast]
    omega
  · intro c2 hc2 hkeys hcap
    rw [hc2.put_keys_not_mem (by rw [hkeys]; exact hk) v x, hc.put_keys_not_mem hk v x,
      hkeys, hcap]
  · intro c1 hc1 hp1 hl1 op hop
    exact hc1.mem_step_of_not_last hp1 hl1 op hop

theorem expired_entries_occupy_capacity_witness :
    ((((newCache 2 : cache Nat).put "a" 1 0).put "b" 2 5).put "c" 3 0).entries
      = { key := "c", value := 3, expireAt := 0 }
        :: (((newCache 2 : cache Nat).put "a" 1 0).put "b" 2 5).entries.dropLast ∧
    "a" ∉ ((((newCache 2 : cache Nat).put "a" 1 0).put "b" 2 5).put "c" 3 0).keys ∧
    (⟨"b", 2, 5⟩ : cacheEntry Nat)
      ∈ ((((newCache 2 : cache Nat).put "a" 1 0).put "b" 2 5).put "c" 3 0).entries ∧
    ((((newCache 2 : cache Nat).put "a" 1 0).put "b" 2 5).put "c" 3 0).entries.length
      = (((newCache 2 : cache Nat).put "a" 1 0).put "b" 2 5).entries.length ∧
    (∀ c2 : cache Nat, c2.consistent →
      c2.keys = (((newCache 2 : cache Nat).put "a" 1 0).put "b" 2 5).keys →
      c2.capacity = (((newCache 2 : cache Nat).put "a" 1 0).put "b" 2 5).capacity →
      (c2.put "c" 3 0).keys
        = ((((newCache 2 : cache Nat).put "a" 1 0).put "b" 2 5).put "c" 3 0).keys) ∧
    (∀ c1 : cache Nat, c1.consistent → (⟨"b", 2, 5⟩ : cacheEntry Nat) ∈ c1.entries →
      c1.entries.getLast? ≠ some ⟨"b", 2, 5⟩ →
      ∀ op : Op Nat, op.key ≠ (⟨"b", 2, 5⟩ : cacheEntry Nat).key →
        (⟨"b", 2, 5⟩ : cacheEntry Nat) ∈ (c1.step op).entries) :=
  expired_entries_occupy_capacity (((newCache 2 : cache Nat).put "a" 1 0).put "b" 2 5)
    (((cache.consistent_newCache 2).put "a" 1 0).put "b" 2 5) "c" (by decide) 3 0 (by decide)
    ⟨"b", 2, 5⟩ ⟨"a", 1, 0⟩ (by decide) (by decide)

/-! ## A non-positive capacity -/

namespace cache

theorem sameContents_put {s t : cache V} (h : s.sameContents t) (hs : s.capacity ≤ 0)
    (ht : t.capacity = 1) (k : String) (v : V) (x : Int) :
    (s.put k v x).sameContents (t.put k v x) := by
  obtain ⟨sl, si, sc, sf⟩ := s
  obtain ⟨tl, ti, tc, tf⟩ := t
  obtain ⟨h1, h2, h3⟩ := h
  simp only at h1 h2 h3 hs ht
  subst h1 h2 h3 ht
  unfold cache.put
  cases hm : mapGet si k with
  | some a => exact ⟨rfl, rfl, rfl⟩
  | none =>
    dsimp only
    have hge : Len sl ≥ sc := by
      have : (0 : Int) ≤ Len sl := by unfold Len; exact Int.ofNat_nonneg _
      omega
    rw [if_pos hge]
    cases hb : Back sl with
    | none =>
      have hnil : sl = [] := by simpa [Back] using hb
      subst hnil
      have hlt : ¬ (Len ([] : List (Element V)) ≥ 1) := by simp [Len]
      rw [if_neg hlt]
      exact ⟨rfl, rfl, rfl⟩
    | some o =>
      have hpos : Len sl ≥ 1 := by
        have hmem := List.mem_of_getLast?_eq_some hb
        have := List.length_pos_of_mem hmem
        unfold Len
        omega
      rw [if_pos hpos]
      exact ⟨rfl, rfl, rfl⟩

theorem sameContents_get {s t : cache V} (h : s.sameContents t) (k : String) (now : Int) :
    (s.get k now).1 = (t.get k now).1 ∧ (s.get k now).2.sameContents (t.get k now).2 := by
  obtain ⟨sl, si, sc, sf⟩ := s
  obtain ⟨tl, ti, tc, tf⟩ := t
  obtain ⟨h1, h2, h3⟩ := h
  simp only at h1 h2 h3
  subst h1 h2 h3
  unfold cache.get
  cases hm : mapGet si k with
  | none => exact ⟨rfl, rfl, rfl, rfl⟩
  | some a =>
    dsimp only
    cases hd : deref sl a with
    | none => exact ⟨rfl, rfl, rfl, rfl⟩
    | some e =>
      dsimp only
      split
      · exact ⟨rfl, rfl, rfl, rfl⟩
      · exact ⟨rfl, rfl, rfl, rfl⟩

theorem sameContents_del {s t : cache V} (h : s.sameContents t) (k : String) :
    (s.del k).sameContents (t.del k) := by
  obtain ⟨sl, si, sc, sf⟩ := s
  obtain ⟨tl, ti, tc, tf⟩ := t
  obtain ⟨h1, h2, h3⟩ := h
  simp only at h1 h2 h3
  subst h1 h2 h3
  unfold cache.del
  cases hm : mapGet si k with
  | none => exact ⟨rfl, rfl, rfl⟩
  | some a => exact ⟨rfl, rfl, rfl⟩

theorem sameContents_results {s t : cache V} (h : s.sameContents t) (hs : s.capacity ≤ 0)
    (ht : t.capacity = 1) (ops : List (Op V)) :
    s.results ops = t.results ops ∧ (s.run ops).sameContents (t.run ops) := by
  induction ops generalizing s t with
  | nil => exact ⟨rfl, h⟩
  | cons op rest ih =>
    cases op with
    | put k v x =>
      have := ih (sameContents_put h hs ht k v x) (by simpa using hs) (by simpa using ht)
      exact ⟨this.1, this.2⟩
    | get k now =>
      have hg := sameContents_get h k now
      have := ih hg.2 (by simpa using hs) (by simpa using ht)
      refine ⟨?_, this.2⟩
      simp only [cache.results]
      rw [hg.1, this.1]
    | del k =>
      have := ih (sameContents_del h k) (by simpa using hs) (by simpa using ht)
      exact ⟨this.1, this.2⟩

end cache

/-- C20 (a shard with non-positive capacity behaves as a shard of capacity 1):
for every capacity `cap <= 0` and every sequence of put/get/del calls, with
the same clock readings, the shard created by `newCache cap` returns the same
results of its reads as the shard created by `newCache 1`, and after every
prefix of the sequence both hold the same order sequence and the same index;
after a first put it holds one entry, more than its capacity. -/
theorem nonpositive_capacity_as_one (cap : Int) (hcap : cap ≤ 0) (ops : List (Op V)) :
    (newCache cap : cache V).results ops = (newCache 1 : cache V).results ops ∧
    (∀ n : Nat,
      ((newCache cap : cache V).run (ops.take n)).list
        = ((newCache 1 : cache V).run (ops.take n)).list ∧
      ((newCache cap : cache V).run (ops.take n)).indexMap
        = ((newCache 1 : cache V).run (ops.take n)).indexMap) ∧
    (∀ (k : String) (v : V) (x : Int),
      ((newCache cap : cache V).put k v x).list.length = 1 ∧
      (((newCache cap : cache V).put k v x).capacity
        < (((newCache cap : cache V).put k v x).list.length : Int))) := by
  have h0 : (newCache cap : cache V).sameContents (newCache 1) := ⟨rfl, rfl, rfl⟩
  refine ⟨(cache.sameContents_results h0 hcap rfl ops).1, ?_, ?_⟩
  · intro n
    have := (cache.sameContents_results h0 hcap rfl (ops.take n)).2
    exact ⟨this.1, this.2.1⟩
  · intro k v x
    have hl : ((newCache cap : cache V).put k v x).list.length = 1 := by
      have h1 := (cache.sameContents_put h0 hcap rfl k v x).1
      rw [h1]
      rfl
    refine ⟨hl, ?_⟩
    rw [cache.put_capacity, hl]
    simp only [newCache]
    omega

theorem nonpositive_capacity_as_one_witness :
    (newCache 0 : cache Nat).results [Op.put "a" 1 0, Op.get "a" 3, Op.put "b" 2 0, Op.get "a" 4]
      = (newCache 1 : cache Nat).results
          [Op.put "a" 1 0, Op.get "a" 3, Op.put "b" 2 0, Op.get "a" 4] ∧
    (∀ n : Nat,
      ((newCache 0 : cache Nat).run
          ([Op.put "a" 1 0, Op.get "a" 3, Op.put "b" 2 0, Op.get "a" 4].take n)).list
        = ((newCache 1 : cache Nat).run
          ([Op.put "a" 1 0, Op.get "a" 3, Op.put "b" 2 0, Op.get "a" 4].take n)).list ∧
      ((newCache 0 : cache Nat).run
          ([Op.put "a" 1 0, Op.get "a" 3, Op.put "b" 2 0, Op.get "a" 4].take n)).indexMap
        = ((newCache 1 : cache Nat).run
          ([Op.put "a" 1 0, Op.get "a" 3, Op.put "b" 2 0, Op.get "a" 4].take n)).indexMap) ∧
    (∀ (k : String) (v : Nat) (x : Int),
      ((newCache 0 : cache Nat).put k v x).list.length = 1 ∧
      (((newCache 0 : cache Nat).put k v x).capacity
        < (((newCache 0 : cache Nat).put k v x).list.length : Int))) :=
  nonpositive_capacity_as_one 0 (by decide) _

/-! ## Routing -/

namespace Cache

/-- A call keeps the shard count, the length of the shard array and the TTL. -/
theorem step_shape {c c1 : Cache V} {op : COp V} (h : c.step op = some c1) :
    c1.shardCount = c.shardCount ∧ c1.shards.length = c.shards.length ∧
    c1.expiration = c.expiration := by
  cases op with
  | Put k v now =>
    simp only [Cache.step] at h
    obtain ⟨i, s, hr, hs⟩ := Put_some h
    rw [Put_eq hr hs] at h
    cases h
    exact ⟨rfl, by simp [setShard], rfl⟩
  | Get k now =>
    simp only [Cache.step] at h
    cases hg : c.Get k now with
    | none => rw [hg] at h; cases h
    | some r =>
      obtain ⟨i, s, hr, hs⟩ := Get_some hg
      rw [Get_eq hr hs] at h
      cases h
      exact ⟨rfl, by simp [setShard], rfl⟩
  | Del k =>
    simp only [Cache.step] at h
    obtain ⟨i, s, hr, hs⟩ := Del_some h
    rw [Del_eq hr hs] at h
    cases h
    exact ⟨rfl, by simp [setShard], rfl⟩
  | LRU2 n =>
    simp only [Cache.step] at h
    cases h
    exact ⟨rfl, by simp [Cache.LRU2], rfl⟩

/-- The index selected by `getShard` for a shard count from 1 to `2 ^ 32 - 1`
that is the length of the shard array. -/
theorem getShard_eq {c : Cache V} (hpos : 0 < c.shardCount) (hlt : c.shardCount < 2 ^ 32)
    (hlen : (c.shards.length : Int) = c.shardCount) (key : String) :
    c.getShard key = some (hash key % c.shardCount.toNat) ∧
    hash key % c.shardCount.toNat < c.shards.length := by
  have hmod : c.shardCount % 2 ^ 32 = c.shardCount := Int.emod_eq_of_lt (by omega) hlt
  have hidx : hash key % c.shardCount.toNat < c.shards.length := by
    have h1 : hash key % c.shardCount.toNat < c.shardCount.toNat := Nat.mod_lt _ (by omega)
    omega
  refine ⟨?_, hidx⟩
  unfold getShard
  dsimp only
  rw [hmod, if_neg (by omega), if_pos hidx]

end Cache

/-- C11, as amended (routing): in a cache whose shard count `N` is the length
of its shard array and satisfies `0 < N < 2 ^ 32`, for every key `getShard`
selects the index `hash(key) mod N`; this index is below `N` and a shard is
stored at it (no division by zero, no access out of range); the selection is
the same in every cache with the same shard count, and no call changes it. -/
theorem routing (c : Cache V) (hpos : 0 < c.shardCount) (hlt : c.shardCount < 2 ^ 32)
    (hlen : (c.shards.length : Int) = c.shardCount) (key : String) :
    c.getShard key = some (hash key % c.shardCount.toNat) ∧
    hash key % c.shardCount.toNat < c.shards.length ∧
    ((hash key % c.shardCount.toNat : Nat) : Int) < c.shardCount ∧
    (∃ s, c.shards[hash key % c.shardCount.toNat]? = some s) ∧
    (∀ c2 : Cache V, c2.shardCount = c.shardCount →
      (c2.shards.length : Int) = c2.shardCount → c2.getShard key = c.getShard key) ∧
    (∀ (op : COp V) (c1 : Cache V), c.step op = some c1 → c1.getShard key = c.getShard key) := by
  obtain ⟨h1, h2⟩ := Cache.getShard_eq hpos hlt hlen key
  refine ⟨h1, h2, by omega, Cache.getShard_shard h1, ?_, ?_⟩
  · intro c2 hc2 hl2
    rw [h1, ← hc2]
    exact (Cache.getShard_eq (by omega) (by omega) hl2 key).1
  · intro op c1 hstep
    obtain ⟨g1, g2, _⟩ := Cache.step_shape hstep
    exact Cache.getShard_congr c c1 g1 g2 key

theorem routing_witness :
    (⟨[newCache 2, newCache 2, newCache 2], 3, 0⟩ : Cache Nat).getShard "key1"
      = some (hash "key1" % (⟨[newCache 2, newCache 2, newCache 2], 3, 0⟩ : Cache Nat).shardCount.toNat) ∧
    hash "key1" % (⟨[newCache 2, newCache 2, newCache 2], 3, 0⟩ : Cache Nat).shardCount.toNat
      < (⟨[newCache 2, newCache 2, newCache 2], 3, 0⟩ : Cache Nat).shards.length ∧
    ((hash "key1" % (⟨[newCache 2, newCache 2, newCache 2], 3, 0⟩ : Cache Nat).shardCount.toNat
        : Nat) : Int) < (⟨[newCache 2, newCache 2, newCache 2], 3, 0⟩ : Cache Nat).shardCount ∧
    (∃ s, (⟨[newCache 2, newCache 2, newCache 2], 3, 0⟩ : Cache Nat).shards[hash "key1" %
        (⟨[newCache 2, newCache 2, newCache 2], 3, 0⟩ : Cache Nat).shardCount.toNat]? = some s) ∧
    (∀ c2 : Cache Nat,
      c2.shardCount = (⟨[newCache 2, newCache 2, newCache 2], 3, 0⟩ : Cache Nat).shardCount →
      (c2.shards.length : Int) = c2.shardCount →
      c2.getShard "key1"
        = (⟨[newCache 2, newCache 2, newCache 2], 3, 0⟩ : Cache Nat).getShard "key1") ∧
    (∀ (op : COp Nat) (c1 : Cache Nat),
      (⟨[newCache 2, newCache 2, newCache 2], 3, 0⟩ : Cache Nat).step op = some c1 →
      c1.getShard "key1"
        = (⟨[newCache 2, newCache 2, newCache 2], 3, 0⟩ : Cache Nat).getShard "key1") :=
  routing ⟨[newCache 2, newCache 2, newCache 2], 3, 0⟩ (by decide) (by decide) (by decide) "key1"

/-- C11 as stated fails for shard counts of `2 ^ 32` and more, because
`uint32(c.shardCount)` truncates: with `2 ^ 32` shards the divisor is zero and
`getShard` panics; with `2 ^ 32 + 1` shards the divisor is one and `getShard`
selects index 0 for the key `"a"`, whereas `hash("a") mod N` is 3826002220. -/
theorem routing_counterexample :
    ((0 : Int) < 4294967296 ∧
      (NewLRUCache 4294967296 1 [] : Option (Cache Nat)).isSome = true ∧
      (NewLRUCache 4294967296 1 [] : Option (Cache Nat)).bind (fun c => c.getShard "a") = none) ∧
    ((0 : Int) < 4294967297 ∧
      (NewLRUCache 4294967297 1 [] : Option (Cache Nat)).bind (fun c => c.getShard "a")
        = some 0 ∧
      hash "a" % 4294967297 = 3826002220) := by
  refine ⟨⟨by decide, ?_, ?_⟩, by decide, ?_, by decide⟩
  · unfold NewLRUCache
    rw [if_neg (by decide)]
    rfl
  · unfold NewLRUCache
    rw [if_neg (by decide), Option.some_bind]
    unfold Cache.getShard
    dsimp only
    rw [if_pos (by decide)]
  · unfold NewLRUCache
    rw [if_neg (by decide), Option.some_bind]
    unfold Cache.getShard
    dsimp only
    rw [if_neg (by decide), List.length_replicate, if_pos (by decide)]
    congr 1

/-! ## Reset and construction -/

namespace Cache

theorem mem_shards_LRU2 {c : Cache V} {n : Int} {s : cache V} (hs : s ∈ (c.LRU2 n).shards) :
    s = newCache n := by
  simp only [Cache.LRU2, List.mem_map] at hs
  obtain ⟨_, _, rfl⟩ := hs
  rfl

theorem Get_LRU2 {c : Cache V} {n : Int} {key : String} {now : Int}
    {r : (Option V × Bool) × Cache V} (h : (c.LRU2 n).Get key now = some r) :
    r.1 = (none, false) := by
  obtain ⟨i, s, hr, hs⟩ := Get_some h
  rw [Get_eq hr hs] at h
  cases h
  have := mem_shards_LRU2 (List.getElem?_mem hs)
  subst this
  rfl

theorem shards_NewLRUCache_of_length (c : Cache V) (n : Int)
    (hlen : (c.shards.length : Int) = c.shardCount) :
    NewLRUCache c.shardCount n [c.expiration] = some (c.LRU2 n) := by
  unfold NewLRUCache
  rw [if_neg (by omega)]
  have hn : c.shardCount.toNat = c.shards.length := by omega
  unfold Cache.LRU2
  rw [hn, List.map_const']

theorem getShard_none_of_zero {c : Cache V} (h : c.shardCount % 2 ^ 32 = 0) (key : String) :
    c.getShard key = none := by
  unfold getShard
  dsimp only
  rw [if_pos h]

theorem calls_none_of_zero {c : Cache V} (h : c.shardCount % 2 ^ 32 = 0) (key : String)
    (v : V) (now : Int) :
    c.Put key v now = none ∧ c.Get key now = none ∧ c.Del key = none := by
  have hr := getShard_none_of_zero h key
  refine ⟨?_, ?_, ?_⟩
  · unfold Cache.Put; rw [hr]
  · unfold Cache.Get; rw [hr]
  · unfold Cache.Del; rw [hr]

end Cache

/-- C12 (reset discards everything): for every cache and every new capacity
`n`, after `LRU2(n)` every shard has an empty order sequence, an empty index
and capacity `n`; the number of shards, the shard count and the TTL are
unchanged; a `Get` never returns found = true, and returns `(nil, false)` for
every key that is routed to a shard; and when the shard count is the length of
the shard array, the cache is the one `NewLRUCache` builds for that shard
count, per-shard capacity `n` and that TTL. -/
theorem reset_discards (c : Cache V) (n : Int) :
    (∀ s ∈ (c.LRU2 n).shards, s.list = [] ∧ s.indexMap = [] ∧ s.capacity = n) ∧
    (c.LRU2 n).shards.length = c.shards.length ∧
    (c.LRU2 n).shardCount = c.shardCount ∧
    (c.LRU2 n).expiration = c.expiration ∧
    (∀ (key : String) (now : Int) (r : (Option V × Bool) × Cache V),
      (c.LRU2 n).Get key now = some r → r.1 = (none, false)) ∧
    (∀ (key : String) (i : Nat), c.getShard key = some i →
      ∀ now : Int, ∃ r, (c.LRU2 n).Get key now = some r ∧ r.1 = (none, false)) ∧
    ((c.shards.length : Int) = c.shardCount →
      NewLRUCache c.shardCount n [c.expiration] = some (c.LRU2 n)) := by
  refine ⟨?_, by simp [Cache.LRU2], rfl, rfl, ?_, ?_, Cache.shards_NewLRUCache_of_length c n⟩
  · intro s hs
    rw [Cache.mem_shards_LRU2 hs]
    exact ⟨rfl, rfl, rfl⟩
  · intro key now r h
    exact Cache.Get_LRU2 h
  · intro key i hroute now
    have hroute2 : (c.LRU2 n).getShard key = some i := by
      rw [Cache.getShard_congr c (c.LRU2 n) rfl (by simp [Cache.LRU2]) key]
      exact hroute
    obtain ⟨s, hs⟩ := Cache.getShard_shard hroute2
    exact ⟨_, Cache.Get_eq hroute2 hs now, Cache.Get_LRU2 (Cache.Get_eq hroute2 hs now)⟩

theorem reset_discards_witness :
    ((NewLRUCache 2 128 [] : Option (Cache Nat)).bind (fun c =>
      (c.Put "key1" 1 10).bind (fun c1 =>
        ((c1.LRU2 64).Get "key1" 20).map Prod.fst))) = some (none, false) ∧
    ((NewLRUCache 2 128 [] : Option (Cache Nat)).bind (fun c =>
      (c.Put "key1" 1 10).map (fun c1 => c1.LRU2 64))) = NewLRUCache 2 64 [0] ∧
    (∀ s ∈ ((⟨[(newCache 128).put "key1" 1 0, newCache 128], 2, 0⟩ : Cache Nat).LRU2 64).shards,
      s.list = [] ∧ s.indexMap = [] ∧ s.capacity = 64) :=
  ⟨by decide, by decide,
    (reset_discards (⟨[(newCache 128).put "key1" 1 0, newCache 128], 2, 0⟩ : Cache Nat) 64).1⟩

/-- C13, as amended (construction performs no validation): a negative shard
count is rejected, the call panics; a zero shard count is not rejected, but a
cache without shards is returned, on which every `Put`, `Get` and `Del`
panics; a non-positive per-shard capacity, with a shard count from 1 to
`2 ^ 32 - 1`, is not rejected: a cache is returned on which `Put` succeeds and
a following `Get`, at a clock reading at which the entry is not expired,
returns the value. -/
theorem fail_fast_configuration (bucketCnt capPerBkt : Int) (expiration : List Int) :
    (bucketCnt < 0 → (NewLRUCache bucketCnt capPerBkt expiration : Option (Cache V)) = none) ∧
    (bucketCnt = 0 → ∃ c : Cache V, NewLRUCache bucketCnt capPerBkt expiration = some c ∧
      c.shards = [] ∧
      ∀ (key : String) (v : V) (now : Int),
        c.Put key v now = none ∧ c.Get key now = none ∧ c.Del key = none) ∧
    (0 < bucketCnt → bucketCnt < 2 ^ 32 → capPerBkt ≤ 0 →
      ∃ c : Cache V, NewLRUCache bucketCnt capPerBkt expiration = some c ∧
        (∀ s ∈ c.shards, s.capacity = capPerBkt) ∧
        ∀ (key : String) (v : V) (now : Int), ∃ c1, c.Put key v now = some c1 ∧
          ∀ now2 : Int, (c.expireAt now = NoExpiration ∨ now2 < c.expireAt now) →
            ∃ r, c1.Get key now2 = some r ∧ r.1 = (some v, true)) := by
  refine ⟨?_, ?_, ?_⟩
  · intro hneg
    unfold NewLRUCache
    rw [if_pos hneg]
  · intro hzero
    subst hzero
    refine ⟨_, by unfold NewLRUCache; rw [if_neg (by decide)], rfl, ?_⟩
    intro key v now
    exact Cache.calls_none_of_zero (show (0 : Int) % 2 ^ 32 = 0 by decide) key v now
  · intro hpos hlt _
    have hbuilt : ∃ c : Cache V, NewLRUCache bucketCnt capPerBkt expiration = some c ∧
        c.consistent ∧ c.expiration = expiration.headD 0 ∧ ∀ key, ∃ i, c.getShard key = some i :=
      Cache.NewLRUCache_routes bucketCnt capPerBkt expiration hpos hlt
    obtain ⟨c, hnew, hc, _, hroute⟩ := hbuilt
    refine ⟨c, hnew, ?_, ?_⟩
    · intro s hs
      unfold NewLRUCache at hnew
      rw [if_neg (by omega)] at hnew
      cases hnew
      rw [List.eq_of_mem_replicate hs]
      rfl
    · intro key v now
      obtain ⟨i, hi⟩ := hroute key
      obtain ⟨c1, hput, hc1, hr1, _, hst1⟩ := Cache.Put_stored hc hi v now
      refine ⟨c1, hput, ?_⟩
      intro now2 hlive
      have hroute1 : c1.getShard key = some i := by rw [hr1, hi]
      obtain ⟨r, hr, hrv⟩ := Cache.Get_of_stored hc1 hroute1 hst1 now2
      have hl : ({ key := key, value := v, expireAt := c.expireAt now } : cacheEntry V).live now2 :=
        hlive
      exact ⟨r, hr, by rw [hrv, if_pos hl]⟩

theorem fail_fast_configuration_witness :
    (∃ c : Cache Nat, NewLRUCache 0 128 [] = some c ∧ c.shards = [] ∧
      ∀ (key : String) (v : Nat) (now : Int),
        c.Put key v now = none ∧ c.Get key now = none ∧ c.Del key = none) ∧
    ((NewLRUCache (-1) 128 [] : Option (Cache Nat)) = none) :=
  ⟨(fail_fast_configuration 0 128 []).2.1 rfl,
    (fail_fast_configuration (-1) 128 []).1 (by decide)⟩

/-- C13 as stated fails: a zero shard count and a non-positive capacity are not
rejected.  `NewLRUCache(0, 128)` returns a cache; `NewLRUCache(16, 0)` and
`NewLRUCache(16, -5)` return a cache on which `Put` succeeds and a following
`Get` returns the value. -/
theorem fail_fast_configuration_counterexample :
    ((0 : Int) ≤ 0 ∧ (NewLRUCache 0 128 [] : Option (Cache Nat)).isSome = true) ∧
    ((0 : Int) ≤ 0 ∧
      ((NewLRUCache 16 0 [] : Option (Cache Nat)).bind (fun c =>
        (c.Put "key1" 1 10).bind (fun c1 =>
          (c1.Get "key1" 20).map Prod.fst))) = some (some 1, true)) ∧
    ((-5 : Int) ≤ 0 ∧
      ((NewLRUCache 16 (-5) [] : Option (Cache Nat)).bind (fun c =>
        (c.Put "key1" 1 10).bind (fun c1 =>
          (c1.Get "key1" 20).map Prod.fst))) = some (some 1, true)) := by
  refine ⟨⟨by decide, by decide⟩, ⟨by decide, by decide⟩, by decide, by decide⟩

/-! ## Shard isolation -/

namespace Cache

theorem agreeAt.getShard {i : Nat} {c c2 : Cache V} (h : agreeAt i c c2) (key : String) :
    c.getShard key = c2.getShard key :=
  getShard_congr c2 c h.1 h.2.1 key

theorem agreeAt.expireAt {i : Nat} {c c2 : Cache V} (h : agreeAt i c c2) (now : Int) :
    c.expireAt now = c2.expireAt now := by
  unfold Cache.expireAt
  rw [h.2.2.1]

theorem agreeAt_setShard {i : Nat} {c c2 : Cache V} (h : agreeAt i c c2) {s : cache V}
    (hs : c.shards[i]? = some s) (s1 : cache V) :
    agreeAt i (c.setShard i s1) (c2.setShard i s1) := by
  refine ⟨h.1, by simpa [setShard] using h.2.1, h.2.2.1, ?_⟩
  rw [shards_setShard_self hs s1, shards_setShard_self (h.2.2.2 ▸ hs) s1]

theorem agreeAt_setShard_ne {i j : Nat} (c : Cache V) (hne : j ≠ i) (s1 : cache V) :
    agreeAt i (c.setShard j s1) c := by
  refine ⟨rfl, by simp [setShard], rfl, ?_⟩
  simp only [setShard]
  exact List.getElem?_set_ne hne

theorem agreeAt.symm {i : Nat} {c c2 : Cache V} (h : agreeAt i c c2) : agreeAt i c2 c :=
  ⟨h.1.symm, h.2.1.symm, h.2.2.1.symm, h.2.2.2.symm⟩

theorem agreeAt.trans {i : Nat} {c c2 c3 : Cache V} (h : agreeAt i c c2) (g : agreeAt i c2 c3) :
    agreeAt i c c3 :=
  ⟨h.1.trans g.1, h.2.1.trans g.2.1, h.2.2.1.trans g.2.2.1, h.2.2.2.trans g.2.2.2⟩

/-- A call on a key routed elsewhere leaves the shard at `i` as it is. -/
theorem step_agreeAt_of_not_routed {i : Nat} {c c1 : Cache V} {op : COp V}
    (hstep : c.step op = some c1) (hop : op.routedTo c i = false) : agreeAt i c1 c := by
  cases op with
  | Put k v now =>
    simp only [Cache.step] at hstep
    obtain ⟨j, s, hr, hs⟩ := Put_some hstep
    rw [Put_eq hr hs] at hstep
    cases hstep
    have hne : j ≠ i := by
      intro hji
      simp [COp.routedTo, hr, hji] at hop
    exact agreeAt_setShard_ne c hne _
  | Get k now =>
    simp only [Cache.step] at hstep
    cases hg : c.Get k now with
    | none => rw [hg] at hstep; cases hstep
    | some r =>
      obtain ⟨j, s, hr, hs⟩ := Get_some hg
      rw [Get_eq hr hs] at hstep
      cases hstep
      have hne : j ≠ i := by
        intro hji
        simp [COp.routedTo, hr, hji] at hop
      exact agreeAt_setShard_ne c hne _
  | Del k =>
    simp only [Cache.step] at hstep
    obtain ⟨j, s, hr, hs⟩ := Del_some hstep
    rw [Del_eq hr hs] at hstep
    cases hstep
    have hne : j ≠ i := by
      intro hji
      simp [COp.routedTo, hr, hji] at hop
    exact agreeAt_setShard_ne c hne _
  | LRU2 n => simp [COp.routedTo] at hop

/-- The same call, routed to `i`, on two caches that agree at `i`. -/
theorem step_agreeAt_of_routed {i : Nat} {c c2 c1 c3 : Cache V} (h : agreeAt i c c2)
    {op : COp V} (hop : op.routedTo c i = true)
    (hstep : c.step op = some c1) (hstep2 : c2.step op = some c3) : agreeAt i c1 c3 := by
  cases op with
  | Put k v now =>
    have hr : c.getShard k = some i := by simpa [COp.routedTo] using hop
    obtain ⟨s, hs⟩ := getShard_shard hr
    simp only [Cache.step] at hstep hstep2
    rw [Put_eq hr hs] at hstep
    rw [Put_eq ((h.getShard k).symm.trans hr) (h.2.2.2 ▸ hs), ← h.expireAt now] at hstep2
    cases hstep
    cases hstep2
    exact agreeAt_setShard h hs _
  | Get k now =>
    have hr : c.getShard k = some i := by simpa [COp.routedTo] using hop
    obtain ⟨s, hs⟩ := getShard_shard hr
    simp only [Cache.step] at hstep hstep2
    rw [Get_eq hr hs] at hstep
    rw [Get_eq ((h.getShard k).symm.trans hr) (h.2.2.2 ▸ hs)] at hstep2
    cases hstep
    cases hstep2
    exact agreeAt_setShard h hs _
  | Del k =>
    have hr : c.getShard k = some i := by simpa [COp.routedTo] using hop
    obtain ⟨s, hs⟩ := getShard_shard hr
    simp only [Cache.step] at hstep hstep2
    rw [Del_eq hr hs] at hstep
    rw [Del_eq ((h.getShard k).symm.trans hr) (h.2.2.2 ▸ hs)] at hstep2
    cases hstep
    cases hstep2
    exact agreeAt_setShard h hs _
  | LRU2 n =>
    simp only [Cache.step] at hstep hstep2
    cases hstep
    cases hstep2
    refine ⟨h.1, by simpa [Cache.LRU2] using h.2.1, h.2.2.1, ?_⟩
    simp only [Cache.LRU2, List.getElem?_map, h.2.2.2]

theorem routedTo_congr {c c2 : Cache V} (h : ∀ k, c.getShard k = c2.getShard k) (i : Nat)
    (op : COp V) : op.routedTo c i = op.routedTo c2 i := by
  cases op <;> simp [COp.routedTo, h]

/-- The shard at `i` after a sequence of calls is the shard at `i` after the
calls of the sequence that are routed to `i`. -/
theorem run_agreeAt {i : Nat} (c0 : Cache V) (ops : List (COp V)) :
    ∀ (c c2 c1 c3 : Cache V), agreeAt i c c2 → (∀ k, c.getShard k = c0.getShard k) →
      c.run ops = some c1 → c2.run (ops.filter (fun op => op.routedTo c0 i)) = some c3 →
      agreeAt i c1 c3 := by
  induction ops with
  | nil =>
    intro c c2 c1 c3 h _ hrun hrun2
    simp only [Cache.run, List.filter_nil] at hrun hrun2
    cases hrun
    cases hrun2
    exact h
  | cons op t ih =>
    intro c c2 c1 c3 h hroute hrun hrun2
    simp only [Cache.run] at hrun
    cases hs : c.step op with
    | none => rw [hs] at hrun; cases hrun
    | some c4 =>
      rw [hs] at hrun
      change c4.run t = some c1 at hrun
      obtain ⟨g1, g2, _⟩ := step_shape hs
      have hroute4 : ∀ k, c4.getShard k = c0.getShard k := fun k =>
        (getShard_congr c c4 g1 g2 k).trans (hroute k)
      have hrc : op.routedTo c i = op.routedTo c0 i := routedTo_congr hroute i op
      cases hop : op.routedTo c0 i with
      | false =>
        rw [List.filter_cons_of_neg (by simp [hop])] at hrun2
        have h4 := step_agreeAt_of_not_routed hs (hrc.trans hop)
        exact ih c4 c2 c1 c3 (h4.trans h) hroute4 hrun hrun2
      | true =>
        rw [List.filter_cons_of_pos (by simp [hop])] at hrun2
        simp only [Cache.run] at hrun2
        cases hs2 : c2.step op with
        | none => rw [hs2] at hrun2; cases hrun2
        | some c5 =>
          rw [hs2] at hrun2
          change c5.run (t.filter (fun op => op.routedTo c0 i)) = some c3 at hrun2
          have h45 := step_agreeAt_of_routed h (hrc.trans hop) hs hs2
          exact ih c4 c5 c1 c3 h45 hroute4 hrun hrun2

theorem Get_agreeAt {i : Nat} {c c2 : Cache V} (h : agreeAt i c c2) {key : String}
    (hr : c.getShard key = some i) (now : Int) :
    (c.Get key now).map Prod.fst = (c2.Get key now).map Prod.fst := by
  obtain ⟨s, hs⟩ := getShard_shard hr
  rw [Get_eq hr hs, Get_eq ((h.getShard key).symm.trans hr) (h.2.2.2 ▸ hs)]
  rfl

end Cache

namespace Cache

theorem run_shape {c c1 : Cache V} {ops : List (COp V)} (h : c.run ops = some c1) :
    c1.shardCount = c.shardCount ∧ c1.shards.length = c.shards.length ∧
    c1.expiration = c.expiration := by
  induction ops generalizing c with
  | nil =>
    simp only [Cache.run] at h
    cases h
    exact ⟨rfl, rfl, rfl⟩
  | cons op t ih =>
    simp only [Cache.run] at h
    cases hs : c.step op with
    | none => rw [hs] at h; cases h
    | some c2 =>
      rw [hs] at h
      change c2.run t = some c1 at h
      obtain ⟨g1, g2, g3⟩ := step_shape hs
      obtain ⟨k1, k2, k3⟩ := ih h
      exact ⟨k1.trans g1, k2.trans g2, k3.trans g3⟩

/-- Every sequence of calls succeeds when every key is routed to a shard. -/
theorem run_some_of_routes {c : Cache V} (hroute : ∀ key, ∃ i, c.getShard key = some i)
    (ops : List (COp V)) : ∃ c1, c.run ops = some c1 := by
  induction ops generalizing c with
  | nil => exact ⟨c, rfl⟩
  | cons op t ih =>
    obtain ⟨c2, hstep⟩ := step_total hroute op
    obtain ⟨g1, g2, _⟩ := step_shape hstep
    obtain ⟨c1, hrun⟩ := ih (fun key => by
      rw [getShard_congr c c2 g1 g2 key]
      exact hroute key)
    refine ⟨c1, ?_⟩
    simp only [Cache.run, hstep, Option.some_bind]
    exact hrun

end Cache

/-- C18, as amended (shard isolation): in a cache whose shard count `N` is the
length of its shard array and satisfies `0 < N < 2 ^ 32`, each of `Put(k, v)`,
`Get(k)` and `Del(k)` succeeds and leaves every shard other than the one at
index `hash(k) mod N` unchanged, and leaves the number of shards, the shard
count and the TTL unchanged.  Consequently, after any sequence of calls, the
result of `Get(k)` is the one obtained after only those calls of the sequence
that work on the shard of `k`. -/
theorem shard_isolation (c : Cache V) (hpos : 0 < c.shardCount) (hlt : c.shardCount < 2 ^ 32)
    (hlen : (c.shards.length : Int) = c.shardCount) (k : String) :
    (∀ op : COp V,
      ((∃ v now, op = COp.Put k v now) ∨ (∃ now, op = COp.Get k now) ∨ op = COp.Del k) →
      ∃ c1, c.step op = some c1 ∧
        (∀ j, j ≠ hash k % c.shardCount.toNat → c1.shards[j]? = c.shards[j]?) ∧
        c1.shards.length = c.shards.length ∧ c1.shardCount = c.shardCount ∧
        c1.expiration = c.expiration) ∧
    (∀ ops : List (COp V), ∃ c1 c3, c.run ops = some c1 ∧
      c.run (ops.filter (fun op => op.routedTo c (hash k % c.shardCount.toNat))) = some c3 ∧
      ∀ now : Int, (c1.Get k now).map Prod.fst = (c3.Get k now).map Prod.fst) := by
  have hroute : ∀ key, ∃ i, c.getShard key = some i := fun key =>
    ⟨_, (Cache.getShard_eq hpos hlt hlen key).1⟩
  have hk := (Cache.getShard_eq hpos hlt hlen k).1
  constructor
  · intro op hop
    obtain ⟨c1, hstep⟩ := Cache.step_total hroute op
    obtain ⟨g1, g2, g3⟩ := Cache.step_shape hstep
    refine ⟨c1, hstep, ?_, g2, g1, g3⟩
    intro j hj
    have hnr : op.routedTo c j = false := by
      have hne : ¬ (some (hash k % c.shardCount.toNat) = some j) := fun h =>
        hj (Option.some.inj h).symm
      rcases hop with ⟨v, now, rfl⟩ | ⟨now, rfl⟩ | rfl <;> simp [COp.routedTo, hk, hne]
    exact (Cache.step_agreeAt_of_not_routed hstep hnr).2.2.2
  · intro ops
    obtain ⟨c1, hrun⟩ := Cache.run_some_of_routes hroute ops
    obtain ⟨c3, hrun3⟩ := Cache.run_some_of_routes hroute
      (ops.filter (fun op => op.routedTo c (hash k % c.shardCount.toNat)))
    refine ⟨c1, c3, hrun, hrun3, ?_⟩
    intro now
    have hagree := Cache.run_agreeAt c ops c c c1 c3 ⟨rfl, rfl, rfl, rfl⟩ (fun _ => rfl)
      hrun hrun3
    obtain ⟨g1, g2, _⟩ := Cache.run_shape hrun
    have hk1 : c1.getShard k = some (hash k % c.shardCount.toNat) := by
      rw [Cache.getShard_congr c c1 g1 g2 k]
      exact hk
    exact Cache.Get_agreeAt hagree hk1 now

theorem shard_isolation_witness :
    (∀ op : COp Nat,
      ((∃ v now, op = COp.Put "key1" v now) ∨ (∃ now, op = COp.Get "key1" now) ∨
        op = COp.Del "key1") →
      ∃ c1, (⟨[newCache 2, newCache 2, newCache 2], 3, 0⟩ : Cache Nat).step op = some c1 ∧
        (∀ j, j ≠ hash "key1" %
            (⟨[newCache 2, newCache 2, newCache 2], 3, 0⟩ : Cache Nat).shardCount.toNat →
          c1.shards[j]? = (⟨[newCache 2, newCache 2, newCache 2], 3, 0⟩ : Cache Nat).shards[j]?) ∧
        c1.shards.length = (⟨[newCache 2, newCache 2, newCache 2], 3, 0⟩ : Cache Nat).shards.length ∧
        c1.shardCount = (⟨[newCache 2, newCache 2, newCache 2], 3, 0⟩ : Cache Nat).shardCount ∧
        c1.expiration = (⟨[newCache 2, newCache 2, newCache 2], 3, 0⟩ : Cache Nat).expiration) ∧
    (∀ ops : List (COp Nat), ∃ c1 c3,
      (⟨[newCache 2, newCache 2, newCache 2], 3, 0⟩ : Cache Nat).run ops = some c1 ∧
      (⟨[newCache 2, newCache 2, newCache 2], 3, 0⟩ : Cache Nat).run
        (ops.filter (fun op =>
          op.routedTo (⟨[newCache 2, newCache 2, newCache 2], 3, 0⟩ : Cache Nat)
            (hash "key1" %
              (⟨[newCache 2, newCache 2, newCache 2], 3, 0⟩ : Cache Nat).shardCount.toNat)))
        = some c3 ∧
      ∀ now : Int, (c1.Get "key1" now).map Prod.fst = (c3.Get "key1" now).map Prod.fst) :=
  shard_isolation ⟨[newCache 2, newCache 2, newCache 2], 3, 0⟩ (by decide) (by decide)
    (by decide) "key1"

/-- C18 as stated fails for shard counts above `2 ^ 32`, because
`uint32(c.shardCount)` truncates: in the cache built with `2 ^ 32 + 1` shards,
`Put("a", 7)` succeeds and changes the shard at index 0, which is not the
index `hash("a") mod N = 3826002220`. -/
theorem shard_isolation_counterexample :
    ∃ c c1 : Cache Nat, NewLRUCache 4294967297 1 [] = some c ∧ 0 < c.shardCount ∧
      c.Put "a" 7 0 = some c1 ∧ c1.shards[0]? ≠ c.shards[0]? ∧
      0 ≠ hash "a" % c.shardCount.toNat := by
  have hnew : (NewLRUCache 4294967297 1 [] : Option (Cache Nat))
      = some ⟨List.replicate (Int.toNat 4294967297) (newCache 1), 4294967297, 0⟩ := by
    unfold NewLRUCache
    rw [if_neg (by decide)]
  have hr : (⟨List.replicate (Int.toNat 4294967297) (newCache 1), 4294967297, 0⟩
      : Cache Nat).getShard "a" = some 0 := by
    unfold Cache.getShard
    dsimp only
    rw [if_neg (by decide), List.length_replicate, if_pos (by decide)]
    congr 1
  have hs : (⟨List.replicate (Int.toNat 4294967297) (newCache 1), 4294967297, 0⟩
      : Cache Nat).shards[0]? = some (newCache 1) := by
    dsimp only
    rw [List.getElem?_replicate, if_pos (by decide)]
  refine ⟨_, _, hnew, by decide, Cache.Put_eq hr hs 7 0, ?_, by decide⟩
  rw [Cache.shards_setShard_self hs, hs]
  decide

end Lru
